import Mathlib

/-!
Shallow embedding of the number-theory module of Quantum++
(`include/number_theory.h`) and verification of its specification.

Conventions of the embedding:
* the C++ `bigint` (a signed integer type) is modelled as `Int`; C-style
  division and remainder (truncation toward zero, remainder carrying the sign
  of the dividend) are `Int.tdiv` and `Int.tmod`;
* `idx` (an unsigned size type) is modelled as `Nat`;
* a function that can `throw qpp::Exception` returns `Except ExcType α`;
* the random source `qpp::rand(a, b)` is modelled as a function
  `Nat → Int → Int → Int` mapping (call identifier, lower bound, upper bound)
  to the value produced; distinct dynamic calls use distinct identifiers, so
  quantifying over all such functions covers every behavior of the source.
-/

set_option maxHeartbeats 1000000

namespace qpp

/-- The exception kinds of `qpp::Exception` that `number_theory.h` raises.
`CUSTOM` models the constructor taking a free-form message string. -/
inductive ExcType where
  | ZERO_SIZE
  | OUT_OF_RANGE
  | PERM_INVALID
  | CUSTOM (msg : String)
  deriving DecidableEq

/-- The absolute value of a C-style remainder: `|m tmod n| = |m| % |n|`. -/
theorem natAbs_tmod (m n : Int) : (Int.tmod m n).natAbs = m.natAbs % n.natAbs := by
  cases m <;> cases n <;>
      simp only [Int.tmod, Int.natAbs_neg, Int.natAbs_negSucc] <;>
    rfl

theorem tmod_natAbs_lt (m : Int) {n : Int} (h : n ≠ 0) :
    (Int.tmod m n).natAbs < n.natAbs := by
  rw [natAbs_tmod]
  exact Nat.mod_lt _ (Int.natAbs_pos.mpr h)

/-- The Euclidean loop of `qpp::gcd`:
`while (n) { result = n; n = m % result; m = result; }` — the value of
`result` (equivalently, of `m`) when the loop exits.  The loop is only entered
with `n ≠ 0` (the zero cases are handled before it). -/
def gcdLoop (m n : Int) : Int :=
  if n = 0 then m
  else gcdLoop n (Int.tmod m n)
termination_by n.natAbs
decreasing_by exact tmod_natAbs_lt m (by assumption)

/-- `qpp::gcd(bigint m, bigint n)`. -/
def gcd (m n : Int) : Except ExcType Int :=
  if m = 0 ∧ n = 0 then .error .OUT_OF_RANGE
  else if m = 0 ∨ n = 0 then .ok (max |m| |n|)
  else
    let result := gcdLoop m n
    .ok (if result > 0 then result else -result)

/-- `qpp::lcm(bigint m, bigint n)`. -/
def lcm (m n : Int) : Except ExcType Int :=
  if m = 0 ∧ n = 0 then .error .OUT_OF_RANGE
  else
    (gcd m n).bind fun g =>
      let result := (m * n).tdiv g
      .ok (if result > 0 then result else -result)

theorem gcdLoop_dvd (m n : Int) : gcdLoop m n ∣ m ∧ gcdLoop m n ∣ n := by
  induction m, n using gcdLoop.induct with
  | case1 m =>
      rw [gcdLoop]
      simp
  | case2 m n hn ih =>
      rw [gcdLoop, if_neg hn]
      obtain ⟨h1, h2⟩ := ih
      refine ⟨?_, h1⟩
      have hsum : gcdLoop n (Int.tmod m n) ∣ Int.tmod m n + n * m.tdiv n :=
        Int.dvd_add h2 (Dvd.dvd.mul_right h1 _)
      rwa [Int.tmod_add_tdiv] at hsum

theorem dvd_gcdLoop (d m n : Int) : d ∣ m → d ∣ n → d ∣ gcdLoop m n := by
  induction m, n using gcdLoop.induct with
  | case1 m =>
      intro hm _
      rw [gcdLoop]
      simpa using hm
  | case2 m n hn' ih =>
      intro hm hn
      rw [gcdLoop, if_neg hn']
      apply ih hn
      rw [Int.tmod_def]
      exact Int.dvd_sub hm (Dvd.dvd.mul_right hn _)

theorem gcdLoop_ne_zero (m n : Int) : n ≠ 0 → gcdLoop m n ≠ 0 := by
  induction m, n using gcdLoop.induct with
  | case1 m => exact fun h => absurd rfl h
  | case2 m n hn ih =>
      intro _
      rw [gcdLoop, if_neg hn]
      by_cases hr : Int.tmod m n = 0
      · rw [hr, gcdLoop]
        simpa using hn
      · exact ih hr

theorem pos_abs_eq (x : Int) : (if x > 0 then x else -x) = |x| := by
  by_cases h : x > 0
  · rw [if_pos h, abs_of_pos h]
  · rw [if_neg h, abs_of_nonpos (le_of_not_lt h)]

/-- For a divisor of a nonzero integer, `|x| ≤ |y|`. -/
theorem abs_le_abs_of_dvd {x y : Int} (hxy : x ∣ y) (hy : y ≠ 0) : |x| ≤ |y| :=
  Int.le_of_dvd (abs_pos.mpr hy) ((abs_dvd x |y|).mpr ((dvd_abs x y).mpr hxy))

/-- C1: for all non-negative `m` and `n` that are not both zero, `qpp::gcd`
returns a non-negative value that divides both `m` and `n`, such that no
larger common divisor exists; if exactly one of the inputs is zero it returns
the absolute value of the other. -/
theorem C1_gcd_correct (m n : Int) (hm : 0 ≤ m) (hn : 0 ≤ n)
    (h : ¬(m = 0 ∧ n = 0)) :
    ∃ g, gcd m n = .ok g ∧ 0 ≤ g ∧ g ∣ m ∧ g ∣ n ∧
      (∀ d : Int, d ∣ m → d ∣ n → d ≤ g) ∧
      (m = 0 → g = |n|) ∧ (n = 0 → g = |m|) := by
  by_cases hm0 : m = 0
  · have hn0 : n ≠ 0 := fun hc => h ⟨hm0, hc⟩
    refine ⟨|n|, ?_, abs_nonneg n, ?_, ?_, ?_, ?_, ?_⟩
    · rw [gcd, if_neg h, if_pos (Or.inl hm0), hm0]
      simp
    · rw [hm0]; exact dvd_zero _
    · exact (abs_dvd n n).mpr dvd_rfl
    · intro d _ hdn
      exact Int.le_of_dvd (abs_pos.mpr hn0) ((dvd_abs d n).mpr hdn)
    · intro _; rfl
    · intro hc; exact absurd hc hn0
  · by_cases hn0 : n = 0
    · refine ⟨|m|, ?_, abs_nonneg m, ?_, ?_, ?_, ?_, ?_⟩
      · rw [gcd, if_neg h, if_pos (Or.inr hn0), hn0]
        simp
      · exact (abs_dvd m m).mpr dvd_rfl
      · rw [hn0]; exact dvd_zero _
      · intro d hdm _
        exact Int.le_of_dvd (abs_pos.mpr hm0) ((dvd_abs d m).mpr hdm)
      · intro hc; exact absurd hc hm0
      · intro _; rfl
    · have hne : ¬(m = 0 ∨ n = 0) := by
        rintro (hc | hc)
        exacts [hm0 hc, hn0 hc]
      have hgd := gcdLoop_dvd m n
      have hgz := gcdLoop_ne_zero m n hn0
      refine ⟨|gcdLoop m n|, ?_, abs_nonneg _, ?_, ?_, ?_, ?_, ?_⟩
      · rw [gcd, if_neg h, if_neg hne]
        simp only [pos_abs_eq]
      · exact (abs_dvd _ _).mpr hgd.1
      · exact (abs_dvd _ _).mpr hgd.2
      · intro d hdm hdn
        have hd : d ∣ |gcdLoop m n| := (dvd_abs d _).mpr (dvd_gcdLoop d m n hdm hdn)
        exact Int.le_of_dvd (abs_pos.mpr hgz) hd
      · intro hc; exact absurd hc hm0
      · intro hc; exact absurd hc hn0
/-- Witness for C1 at `m = 4`, `n = 6`. -/
theorem C1_gcd_correct_witness :
    (0 : Int) ≤ 4 ∧ (0 : Int) ≤ 6 ∧ ¬((4 : Int) = 0 ∧ (6 : Int) = 0) ∧
      (∃ g, gcd 4 6 = .ok g ∧ 0 ≤ g ∧ g ∣ (4 : Int) ∧ g ∣ (6 : Int) ∧
        (∀ d : Int, d ∣ 4 → d ∣ 6 → d ≤ g) ∧
        ((4 : Int) = 0 → g = |(6 : Int)|) ∧ ((6 : Int) = 0 → g = |(4 : Int)|)) :=
  ⟨by norm_num, by norm_num, by norm_num,
    C1_gcd_correct 4 6 (by norm_num) (by norm_num) (by norm_num)⟩

/-! ### Extended Euclidean algorithm: `qpp::egcd`, `qpp::modinv` -/

/-- The loop of `qpp::egcd`:
`while (n) { q = m / n, r = m - q * n; a = a2 - q * a1, b = b2 - q * b1;
m = n, n = r; a2 = a1, a1 = a, b2 = b1, b1 = b; }` followed by
`c = m, a = a2, b = b2` — the tuple `(a, b, c)` before sign correction. -/
def egcdLoop (m n a1 a2 b1 b2 : Int) : Int × Int × Int :=
  if n = 0 then (a2, b2, m)
  else
    let q := m.tdiv n
    let r := m - q * n
    egcdLoop n r (a2 - q * a1) a1 (b2 - q * b1) b1
termination_by n.natAbs
decreasing_by
  have hr : m - m.tdiv n * n = Int.tmod m n := by
    rw [Int.tmod_def]; ring
  rw [hr]
  exact tmod_natAbs_lt m (by assumption)

/-- `qpp::egcd(bigint m, bigint n)`: initial accumulators
`a1 = 0, a2 = 1, b1 = 1, b2 = 0`, then sign correction `if (c < 0)`. -/
def egcd (m n : Int) : Except ExcType (Int × Int × Int) :=
  if m = 0 ∧ n = 0 then .error .OUT_OF_RANGE
  else
    let t := egcdLoop m n 0 1 1 0
    if t.2.2 < 0 then .ok (-t.1, -t.2.1, -t.2.2) else .ok t

/-- Plain recursive form of the extended Euclidean algorithm; used only to
analyse `egcdLoop` (the two are related by `egcdLoop_eq`). -/
def egcdRec (m n : Int) : Int × Int × Int :=
  if n = 0 then (1, 0, m)
  else
    ((egcdRec n (m - m.tdiv n * n)).2.1,
     (egcdRec n (m - m.tdiv n * n)).1 - m.tdiv n * (egcdRec n (m - m.tdiv n * n)).2.1,
     (egcdRec n (m - m.tdiv n * n)).2.2)
termination_by n.natAbs
decreasing_by
  all_goals
    have hr : m - m.tdiv n * n = Int.tmod m n := by
      rw [Int.tmod_def]; ring
  all_goals rw [hr]
  all_goals exact tmod_natAbs_lt m (by assumption)

/-- The tail-recursive loop computes a linear combination of its accumulators,
with the coefficients produced by the plain recursion. -/
theorem egcdLoop_eq (m n : Int) : ∀ a1 a2 b1 b2 : Int,
    egcdLoop m n a1 a2 b1 b2 =
      ((egcdRec m n).1 * a2 + (egcdRec m n).2.1 * a1,
       (egcdRec m n).1 * b2 + (egcdRec m n).2.1 * b1,
       (egcdRec m n).2.2) := by
  induction m, n using egcdRec.induct with
  | case1 m =>
      intro a1 a2 b1 b2
      rw [egcdLoop, egcdRec]
      norm_num
  | case2 m n hn ih =>
      intro a1 a2 b1 b2
      rw [egcdLoop, if_neg hn, egcdRec, if_neg hn]
      show egcdLoop n (m - m.tdiv n * n) (a2 - m.tdiv n * a1) a1
          (b2 - m.tdiv n * b1) b1 = _
      rw [ih]
      refine Prod.ext ?_ (Prod.ext ?_ rfl) <;> simp <;> ring

theorem egcdRec_bezout (m n : Int) :
    (egcdRec m n).1 * m + (egcdRec m n).2.1 * n = (egcdRec m n).2.2 := by
  induction m, n using egcdRec.induct with
  | case1 m =>
      rw [egcdRec]
      norm_num
  | case2 m n hn ih =>
      rw [egcdRec, if_neg hn]
      have heq : m = (m - m.tdiv n * n) + m.tdiv n * n := by ring
      calc (egcdRec n (m - m.tdiv n * n)).2.1 * m +
            ((egcdRec n (m - m.tdiv n * n)).1 -
              m.tdiv n * (egcdRec n (m - m.tdiv n * n)).2.1) * n
      _ = (egcdRec n (m - m.tdiv n * n)).1 * n +
            (egcdRec n (m - m.tdiv n * n)).2.1 * (m - m.tdiv n * n) := by ring
      _ = (egcdRec n (m - m.tdiv n * n)).2.2 := ih

/-- The third component of the plain recursion follows the same remainder
chain as the gcd loop. -/
theorem egcdRec_c_eq_gcdLoop (m n : Int) : (egcdRec m n).2.2 = gcdLoop m n := by
  induction m, n using egcdRec.induct with
  | case1 m =>
      rw [egcdRec, gcdLoop]
      norm_num
  | case2 m n hn ih =>
      rw [egcdRec, if_neg hn, gcdLoop, if_neg hn]
      have hr : m - m.tdiv n * n = Int.tmod m n := by
        rw [Int.tmod_def]; ring
      rw [← hr]
      exact ih

/-- Coefficient bounds for the plain recursion on non-negative inputs. -/
theorem egcdRec_bound (m n : Int) : 0 ≤ m → 0 ≤ n →
    |(egcdRec m n).1| ≤ max n 1 ∧ |(egcdRec m n).2.1| ≤ max m 1 := by
  induction m, n using egcdRec.induct with
  | case1 m =>
      intro hm _
      rw [egcdRec]
      norm_num
  | case2 m n hn ih =>
      intro hm hn0
      have hnpos : 0 < n := lt_of_le_of_ne hn0 (Ne.symm hn)
      have hq : 0 ≤ m.tdiv n := Int.tdiv_nonneg hm hn0
      have hrtm : m - m.tdiv n * n = Int.tmod m n := by
        rw [Int.tmod_def]; ring
      have hr0 : 0 ≤ m - m.tdiv n * n := by
        rw [hrtm]; exact Int.tmod_nonneg n hm
      have hrlt : m - m.tdiv n * n < n := by
        rw [hrtm]; exact Int.tmod_lt_of_pos m hnpos
      rw [egcdRec, if_neg hn]
      by_cases hrz : m - m.tdiv n * n = 0
      · rw [hrz, egcdRec]
        norm_num
      · obtain ⟨iha, ihb⟩ := ih hn0 hr0
        have hr1 : (1 : Int) ≤ m - m.tdiv n * n :=
          lt_of_le_of_ne hr0 (Ne.symm hrz)
        constructor
        · exact ihb
        · have hmaxr : max (m - m.tdiv n * n) 1 = m - m.tdiv n * n :=
            max_eq_left hr1
          have hmaxn : max n 1 = n := max_eq_left hnpos
          have h1 : |(egcdRec n (m - m.tdiv n * n)).1 -
              m.tdiv n * (egcdRec n (m - m.tdiv n * n)).2.1| ≤
              |(egcdRec n (m - m.tdiv n * n)).1| +
                m.tdiv n * |(egcdRec n (m - m.tdiv n * n)).2.1| := by
            calc |(egcdRec n (m - m.tdiv n * n)).1 -
                m.tdiv n * (egcdRec n (m - m.tdiv n * n)).2.1|
              ≤ |(egcdRec n (m - m.tdiv n * n)).1| +
                  |m.tdiv n * (egcdRec n (m - m.tdiv n * n)).2.1| :=
                abs_sub _ _
            _ = |(egcdRec n (m - m.tdiv n * n)).1| +
                  m.tdiv n * |(egcdRec n (m - m.tdiv n * n)).2.1| := by
                rw [abs_mul, abs_of_nonneg hq]
          have h2 : m.tdiv n * |(egcdRec n (m - m.tdiv n * n)).2.1| ≤
              m.tdiv n * n := by
            apply mul_le_mul_of_nonneg_left _ hq
            rw [hmaxn] at ihb
            exact ihb
          have h3 : |(egcdRec n (m - m.tdiv n * n)).1| ≤ m - m.tdiv n * n := by
            rw [hmaxr] at iha
            exact iha
          have : |(egcdRec n (m - m.tdiv n * n)).1 -
              m.tdiv n * (egcdRec n (m - m.tdiv n * n)).2.1| ≤ m := by
            calc |(egcdRec n (m - m.tdiv n * n)).1 -
                m.tdiv n * (egcdRec n (m - m.tdiv n * n)).2.1|
              ≤ |(egcdRec n (m - m.tdiv n * n)).1| +
                  m.tdiv n * |(egcdRec n (m - m.tdiv n * n)).2.1| := h1
            _ ≤ (m - m.tdiv n * n) + m.tdiv n * n := add_le_add h3 h2
            _ = m := by ring
          exact le_max_of_le_left this

theorem egcdLoop_init (m n : Int) : egcdLoop m n 0 1 1 0 = egcdRec m n := by
  rw [egcdLoop_eq]
  refine Prod.ext ?_ (Prod.ext ?_ rfl) <;> simp

/-- The absolute value of the remainder-chain result is the mathematical gcd. -/
theorem abs_egcdRec_c (m n : Int) : |(egcdRec m n).2.2| = Int.gcd m n := by
  rw [egcdRec_c_eq_gcdLoop]
  refine Int.dvd_antisymm (abs_nonneg _) (Int.natCast_nonneg _) ?_ ?_
  · exact Int.dvd_gcd ((abs_dvd _ _).mpr (gcdLoop_dvd m n).1)
      ((abs_dvd _ _).mpr (gcdLoop_dvd m n).2)
  · exact (dvd_abs _ _).mpr (dvd_gcdLoop _ m n Int.gcd_dvd_left Int.gcd_dvd_right)

/-- On its non-error domain, `qpp::gcd` returns `|c|` where `c` is the
remainder-chain result. -/
theorem gcd_eq_ok (m n : Int) (h : ¬(m = 0 ∧ n = 0)) :
    gcd m n = .ok |(egcdRec m n).2.2| := by
  by_cases hm0 : m = 0
  · have hn0 : n ≠ 0 := fun hc => h ⟨hm0, hc⟩
    subst hm0
    rw [gcd, if_neg h, if_pos (Or.inl rfl), egcdRec, if_neg hn0]
    simp only [Int.zero_tdiv, zero_mul, zero_sub, neg_zero]
    rw [egcdRec]
    norm_num
  · by_cases hn0 : n = 0
    · subst hn0
      rw [gcd, if_neg h, if_pos (Or.inr rfl), egcdRec]
      norm_num
    · have hne : ¬(m = 0 ∨ n = 0) := by
        rintro (hc | hc)
        exacts [hm0 hc, hn0 hc]
      rw [gcd, if_neg h, if_neg hne]
      simp only [pos_abs_eq, egcdRec_c_eq_gcdLoop]

/-- The `ok` result of `qpp::egcd`, described through the plain recursion. -/
theorem egcd_ok (m n : Int) (h : ¬(m = 0 ∧ n = 0)) :
    ∃ a b, egcd m n = .ok (a, b, (Int.gcd m n : Int)) ∧
      a * m + b * n = Int.gcd m n ∧
      |a| = |(egcdRec m n).1| ∧ |b| = |(egcdRec m n).2.1| := by
  have hbez := egcdRec_bezout m n
  have habs := abs_egcdRec_c m n
  rw [egcd, if_neg h, egcdLoop_init]
  by_cases hc : (egcdRec m n).2.2 < 0
  · refine ⟨-(egcdRec m n).1, -(egcdRec m n).2.1, ?_, by push_cast [← habs, abs_of_neg hc]; linarith [hbez], by rw [abs_neg], by rw [abs_neg]⟩
    simp only [if_pos hc]
    rw [← habs, abs_of_neg hc]
  · refine ⟨(egcdRec m n).1, (egcdRec m n).2.1, ?_, by push_cast [← habs, abs_of_nonneg (not_lt.mp hc)]; exact hbez, rfl, rfl⟩
    simp only [if_neg hc]
    rw [← habs, abs_of_nonneg (not_lt.mp hc)]

/-- C2: `qpp::egcd` fails (out-of-range) exactly on `(0, 0)`; on every other
input it returns a triple `(a, b, c)` with `a*m + b*n = c`, `c ≥ 0`, and `c`
equal to the value returned by `qpp::gcd(m, n)`. -/
theorem C2_egcd_correct :
    egcd 0 0 = .error .OUT_OF_RANGE ∧
    ∀ m n : Int, ¬(m = 0 ∧ n = 0) →
      ∃ a b c, egcd m n = .ok (a, b, c) ∧ a * m + b * n = c ∧ 0 ≤ c ∧
        gcd m n = .ok c := by
  constructor
  · rw [egcd]
    norm_num
  · intro m n h
    obtain ⟨a, b, hok, hbez, _, _⟩ := egcd_ok m n h
    refine ⟨a, b, (Int.gcd m n : Int), hok, hbez, Int.natCast_nonneg _, ?_⟩
    rw [gcd_eq_ok m n h, abs_egcdRec_c]

/-- Witness for C2 at `m = 6`, `n = -4`. -/
theorem C2_egcd_correct_witness :
    ¬((6 : Int) = 0 ∧ (-4 : Int) = 0) ∧
      (∃ a b c, egcd 6 (-4) = .ok (a, b, c) ∧ a * 6 + b * (-4) = c ∧ 0 ≤ c ∧
        gcd 6 (-4) = .ok c) :=
  ⟨by norm_num, C2_egcd_correct.2 6 (-4) (by norm_num)⟩

/-- `qpp::modinv(bigint a, bigint p)`: checks `a <= 0 || p <= 0`, runs
`egcd(p, a)`, rejects `gcd != 1`, and shifts a non-positive coefficient by
`p`. -/
def modinv (a p : Int) : Except ExcType Int :=
  if a ≤ 0 ∨ p ≤ 0 then .error .OUT_OF_RANGE
  else
    (egcd p a).bind fun t =>
      if t.2.2 ≠ 1 then .error .OUT_OF_RANGE
      else .ok (if t.2.1 > 0 then t.2.1 else t.2.1 + p)

/-- C3 (amended): for coprime `a > 0` and `p > 1`, `qpp::modinv` returns a
value in the open interval `(0, p)` with `(a * modinv(a,p)) mod p == 1`
(C-style `mod`); for `a, p > 0` with `gcd(a, p) ≠ 1` it fails with an
out-of-range error.  (The original claim, stated for every `p > 0`, fails at
`p = 1`; see the counterexample.) -/
theorem C3_modinv_correct :
    (∀ a p : Int, 0 < a → 1 < p → Int.gcd a p = 1 →
      ∃ v, modinv a p = .ok v ∧ 0 < v ∧ v < p ∧ Int.tmod (a * v) p = 1) ∧
    (∀ a p : Int, 0 < a → 0 < p → Int.gcd a p ≠ 1 →
      modinv a p = .error .OUT_OF_RANGE) := by
  constructor
  · intro a p ha hp hco
    have hp0 : (0 : Int) < p := lt_trans one_pos hp
    have hne : ¬(p = 0 ∧ a = 0) := fun hc => absurd hc.1 (ne_of_gt hp0)
    obtain ⟨x, y, hok, hbez, _, hyabs⟩ := egcd_ok p a hne
    have hg : (Int.gcd p a : Int) = 1 := by
      rw [Int.gcd_comm p a, hco]
      norm_num
    rw [hg] at hok hbez
    have hcond : ¬(a ≤ 0 ∨ p ≤ 0) := by
      rintro (hc | hc) <;> linarith
    have hbound : |y| ≤ p := by
      rw [hyabs]
      exact le_trans (egcdRec_bound p a hp0.le ha.le).2 (max_le le_rfl hp.le)
    have hpdvd1 : ¬ (p ∣ 1) := fun hd =>
      absurd (Int.le_of_dvd one_pos hd) (not_le.mpr hp)
    have hay : a * y = 1 - x * p := by
      rw [mul_comm a y]
      linarith [hbez]
    have hy0 : y ≠ 0 := by
      intro h0
      rw [h0] at hbez
      exact hpdvd1 ⟨x, by linarith [hbez]⟩
    have hyp : y ≠ p := by
      intro h0
      rw [h0] at hay
      exact hpdvd1 ⟨x + a, by linarith [hay]⟩
    have hyn : y ≠ -p := by
      intro h0
      rw [h0] at hay
      exact hpdvd1 ⟨x - a, by linarith [hay]⟩
    have hylt : |y| < p := by
      refine lt_of_le_of_ne hbound ?_
      intro h0
      rcases (abs_eq hp0.le).mp h0 with h1 | h1
      exacts [hyp h1, hyn h1]
    have hyrange := abs_lt.mp hylt
    have hmodinv : modinv a p = .ok (if y > 0 then y else y + p) := by
      rw [modinv, if_neg hcond, hok]
      simp [Except.bind]
    refine ⟨if y > 0 then y else y + p, hmodinv, ?_, ?_, ?_⟩
    · by_cases hygt : y > 0
      · simpa [hygt]
      · have hylt0 : y < 0 := lt_of_le_of_ne (not_lt.mp hygt) hy0
        rw [if_neg hygt]
        linarith [hyrange.1]
    · by_cases hygt : y > 0
      · rw [if_pos hygt]
        exact hyrange.2
      · have hylt0 : y < 0 := lt_of_le_of_ne (not_lt.mp hygt) hy0
        rw [if_neg hygt]
        linarith
    · by_cases hygt : y > 0
      · rw [if_pos hygt,
          Int.tmod_eq_emod (mul_nonneg ha.le hygt.le) hp0.le]
        have hform : a * y = 1 + p * (-x) := by linear_combination hay
        rw [hform, Int.add_mul_emod_self_left,
          Int.emod_eq_of_lt (by norm_num) hp]
      · have hv0 : 0 < y + p := by linarith [hyrange.1]
        rw [if_neg hygt,
          Int.tmod_eq_emod (mul_nonneg ha.le hv0.le) hp0.le]
        have hform : a * (y + p) = 1 + p * (a - x) := by linear_combination hay
        rw [hform, Int.add_mul_emod_self_left,
          Int.emod_eq_of_lt (by norm_num) hp]
  · intro a p ha hp hgc
    have hne : ¬(p = 0 ∧ a = 0) := fun hc => absurd hc.1 (ne_of_gt hp)
    obtain ⟨x, y, hok, _, _, _⟩ := egcd_ok p a hne
    have hcond : ¬(a ≤ 0 ∨ p ≤ 0) := by rintro (hc | hc) <;> linarith
    rw [modinv, if_neg hcond, hok]
    have hgne : ((Int.gcd p a : Int)) ≠ 1 := by
      rw [Int.gcd_comm p a]
      intro hc
      exact hgc (by exact_mod_cast hc)
    simp [Except.bind, hgne]

/-- Witness for C3 at `(a, p) = (3, 5)` (first part) and `(2, 4)` (second). -/
theorem C3_modinv_correct_witness :
    ((0 : Int) < 3 ∧ (1 : Int) < 5 ∧ Int.gcd 3 5 = 1 ∧
      (∃ v, modinv 3 5 = .ok v ∧ 0 < v ∧ v < 5 ∧ Int.tmod (3 * v) 5 = 1)) ∧
    ((0 : Int) < 2 ∧ (0 : Int) < 4 ∧ Int.gcd 2 4 ≠ 1 ∧
      modinv 2 4 = .error .OUT_OF_RANGE) :=
  ⟨⟨by norm_num, by norm_num, by norm_num [Int.gcd],
      C3_modinv_correct.1 3 5 (by norm_num) (by norm_num) (by norm_num [Int.gcd])⟩,
    ⟨by norm_num, by norm_num, by norm_num [Int.gcd],
      C3_modinv_correct.2 2 4 (by norm_num) (by norm_num) (by norm_num [Int.gcd])⟩⟩

theorem egcdRec_one_zero : egcdRec 1 0 = (1, 0, 1) := by
  rw [egcdRec]
  norm_num

theorem egcdRec_one_one : egcdRec 1 1 = (0, 1, 1) := by
  rw [egcdRec]
  norm_num [egcdRec_one_zero]

/-- C3 counterexample: at `a = 1`, `p = 1` (positive and coprime) `modinv`
returns `1`, which does not lie in the open interval `(0, 1)`, and
`(1 * 1) mod 1 = 0 ≠ 1`. -/
theorem C3_modinv_counterexample :
    (0 : Int) < 1 ∧ Int.gcd 1 1 = 1 ∧ modinv 1 1 = .ok 1 ∧
      ¬((1 : Int) < 1) ∧ Int.tmod (1 * 1) 1 ≠ 1 := by
  refine ⟨one_pos, by norm_num [Int.gcd], ?_, by norm_num, by norm_num⟩
  rw [modinv]
  norm_num
  rw [egcd]
  norm_num [egcdLoop_init, egcdRec_one_one, Except.bind]

/-! ### `qpp::internal`: overflow-safe modular multiplication -/

namespace internal

/-- The loop of `qpp::internal::mulmod`:
`while (b > 0) { if (b & 1) r = ((m - r) > a) ? r + a : r + a - m;
b >>= 1; if (b) a = ((m - a) > a) ? a + a : a + a - m; }`.
For the positive `b` the loop inspects, `b & 1` is `b % 2 == 1` and
`b >>= 1` is division by two.  Note the doubling of `a` uses the already
shifted `b`. -/
def mulmodLoop (m a b r : Int) : Int :=
  if b > 0 then
    mulmodLoop m
      (if b.tdiv 2 ≠ 0 then (if m - a > a then a + a else a + a - m) else a)
      (b.tdiv 2)
      (if Int.tmod b 2 = 1 then (if m - r > a then r + a else r + a - m) else r)
  else r
termination_by b.natAbs
decreasing_by
  have hb : 0 < b := by assumption
  have h1 : (b.tdiv 2).natAbs = b.natAbs / 2 := Int.natAbs_tdiv b 2
  rw [h1]
  exact Nat.div_lt_self (Int.natAbs_pos.mpr hb.ne') (by norm_num)

/-- `qpp::internal::mulmod(a, b, m)`: reduces both operands, then runs the
double-and-add loop with accumulator `r = 0`. -/
def mulmod (a b m : Int) : Int :=
  mulmodLoop m (Int.tmod a m) (Int.tmod b m) 0

/-- The loop of `qpp::internal::mulmod1`:
`while (b > 0) { if (b % 2 == 1) res = (res + a) % mod;
a = (a * 2) % mod; b /= 2; }`. -/
def mulmod1Loop (mod a b res : Int) : Int :=
  if b > 0 then
    mulmod1Loop mod (Int.tmod (a * 2) mod) (b.tdiv 2)
      (if Int.tmod b 2 = 1 then Int.tmod (res + a) mod else res)
  else res
termination_by b.natAbs
decreasing_by
  have hb : 0 < b := by assumption
  have h1 : (b.tdiv 2).natAbs = b.natAbs / 2 := Int.natAbs_tdiv b 2
  rw [h1]
  exact Nat.div_lt_self (Int.natAbs_pos.mpr hb.ne') (by norm_num)

/-- `qpp::internal::mulmod1(a, b, mod)`: reduces `a`, runs the loop with
`res = 0`, and returns `res % mod`. -/
def mulmod1 (a b mod : Int) : Int :=
  Int.tmod (mulmod1Loop mod (Int.tmod a mod) b 0) mod

/-- The subtraction-based modular addition used by `mulmod` equals `emod`
on in-range operands. -/
theorem addmod_eq {m r a : Int} (hm : 0 < m) (hr0 : 0 ≤ r) (hrm : r < m)
    (ha0 : 0 ≤ a) (ham : a < m) :
    (if m - r > a then r + a else r + a - m) = (r + a) % m := by
  split_ifs with h
  · rw [Int.emod_eq_of_lt (by linarith) (by linarith)]
  · have h2 : 0 ≤ r + a - m := by linarith
    have h1 : r + a - m < m := by linarith
    calc r + a - m = (r + a - m) % m := (Int.emod_eq_of_lt h2 h1).symm
    _ = (r + a) % m := Int.emod_sub_cancel (r + a) m

/-- Parity of a positive integer under C-style remainder: `b = 2*(b/2) + s`
with `s ∈ {0, 1}`. -/
theorem tmod_two_split (b : Int) (hb : 0 ≤ b) :
    b = 2 * b.tdiv 2 + Int.tmod b 2 ∧
      (Int.tmod b 2 = 0 ∨ Int.tmod b 2 = 1) := by
  refine ⟨(Int.tdiv_add_tmod b 2).symm, ?_⟩
  have h0 : 0 ≤ Int.tmod b 2 := Int.tmod_nonneg 2 hb
  have h1 : Int.tmod b 2 < 2 := Int.tmod_lt_of_pos b (by norm_num)
  omega

/-- Correctness of the `mulmod` loop on reduced inputs. -/
theorem mulmodLoop_eq (m a b r : Int) : 0 < m → 0 ≤ a → a < m → 0 ≤ r → r < m →
    0 ≤ b → mulmodLoop m a b r = (r + a * b) % m := by
  induction a, b, r using mulmodLoop.induct m with
  | case2 a b r hb =>
      intro _ _ _ hr0 hrm hbn
      rw [mulmodLoop, if_neg hb]
      have hb0 : b = 0 := le_antisymm (not_lt.mp hb) hbn
      rw [hb0, mul_zero, add_zero]
      exact (Int.emod_eq_of_lt hr0 hrm).symm
  | case1 a b r hb ih =>
      intro hm ha0 ham hr0 hrm _
      simp only [dite_eq_ite] at ih
      obtain ⟨hsplit, hs⟩ := tmod_two_split b hb.le
      have hq0 : 0 ≤ b.tdiv 2 := Int.tdiv_nonneg hb.le (by norm_num)
      have ha'range : 0 ≤ (if b.tdiv 2 ≠ 0 then
            (if m - a > a then a + a else a + a - m) else a) ∧
          (if b.tdiv 2 ≠ 0 then
            (if m - a > a then a + a else a + a - m) else a) < m := by
        split_ifs <;> constructor <;> linarith
      have hr'range : 0 ≤ (if Int.tmod b 2 = 1 then
            (if m - r > a then r + a else r + a - m) else r) ∧
          (if Int.tmod b 2 = 1 then
            (if m - r > a then r + a else r + a - m) else r) < m := by
        split_ifs <;> constructor <;> linarith
      have ha'cong : (if b.tdiv 2 ≠ 0 then
            (if m - a > a then a + a else a + a - m) else a) ≡
          (if b.tdiv 2 ≠ 0 then a + a else a) [ZMOD m] := by
        by_cases h1 : b.tdiv 2 ≠ 0
        · rw [if_pos h1, if_pos h1, addmod_eq hm ha0 ham ha0 ham]
          exact Int.mod_modEq (a + a) m
        · rw [if_neg h1, if_neg h1]
      have hr'cong : (if Int.tmod b 2 = 1 then
            (if m - r > a then r + a else r + a - m) else r) ≡
          r + a * Int.tmod b 2 [ZMOD m] := by
        rcases hs with h1 | h1
        · rw [h1]
          simp only [if_neg (by norm_num : ¬(0 : Int) = 1), mul_zero, add_zero]
          exact Int.ModEq.rfl
        · rw [h1]
          simp only [if_pos rfl, mul_one]
          rw [addmod_eq hm hr0 hrm ha0 ham]
          exact Int.mod_modEq (r + a) m
      rw [mulmodLoop, if_pos hb,
        ih hm ha'range.1 ha'range.2 hr'range.1 hr'range.2 hq0]
      have hcong := Int.ModEq.add hr'cong
        (Int.ModEq.mul_right (b.tdiv 2) ha'cong)
      refine Int.ModEq.eq (hcong.trans ?_)
      by_cases h1 : b.tdiv 2 ≠ 0
      · rw [if_pos h1]
        have heq : r + a * Int.tmod b 2 + (a + a) * b.tdiv 2 = r + a * b := by
          linear_combination (-a) * hsplit
        rw [heq]
      · rw [if_neg h1]
        have h2 : b.tdiv 2 = 0 := not_not.mp h1
        rw [h2] at hsplit ⊢
        have heq : r + a * Int.tmod b 2 + a * 0 = r + a * b := by
          linear_combination (-a) * hsplit
        rw [heq]

/-- Correctness of the `mulmod1` loop: the accumulator stays non-negative and
tracks `res + a*b` modulo `mod`. -/
theorem mulmod1Loop_spec (mod a b res : Int) : 0 < mod → 0 ≤ a → 0 ≤ res →
    0 ≤ b →
    0 ≤ mulmod1Loop mod a b res ∧
      mulmod1Loop mod a b res ≡ res + a * b [ZMOD mod] := by
  induction a, b, res using mulmod1Loop.induct mod with
  | case2 a b res hb =>
      intro _ _ hres hbn
      rw [mulmod1Loop, if_neg hb]
      have hb0 : b = 0 := le_antisymm (not_lt.mp hb) hbn
      rw [hb0, mul_zero, add_zero]
      exact ⟨hres, Int.ModEq.refl res⟩
  | case1 a b res hb ih =>
      intro hm ha0 hres _
      simp only [dite_eq_ite] at ih
      obtain ⟨hsplit, hs⟩ := tmod_two_split b hb.le
      have hq0 : 0 ≤ b.tdiv 2 := Int.tdiv_nonneg hb.le (by norm_num)
      have ha' : 0 ≤ Int.tmod (a * 2) mod :=
        Int.tmod_nonneg mod (by linarith)
      have hres' : 0 ≤ (if Int.tmod b 2 = 1 then Int.tmod (res + a) mod
          else res) := by
        split_ifs with h1
        · exact Int.tmod_nonneg mod (by linarith)
        · exact hres
      obtain ⟨hpos, hcong⟩ := ih hm ha' hres' hq0
      rw [mulmod1Loop, if_pos hb]
      refine ⟨hpos, hcong.trans ?_⟩
      have ha'cong : Int.tmod (a * 2) mod ≡ a * 2 [ZMOD mod] := by
        rw [Int.tmod_eq_emod (by linarith) hm.le]
        exact Int.mod_modEq (a * 2) mod
      have hres'cong : (if Int.tmod b 2 = 1 then Int.tmod (res + a) mod
          else res) ≡ res + a * Int.tmod b 2 [ZMOD mod] := by
        rcases hs with h1 | h1
        · rw [h1]
          simp only [if_neg (by norm_num : ¬(0 : Int) = 1), mul_zero, add_zero]
          exact Int.ModEq.rfl
        · rw [h1]
          simp only [if_pos rfl, mul_one]
          rw [Int.tmod_eq_emod (by linarith) hm.le]
          exact Int.mod_modEq (res + a) mod
      have hcomb := Int.ModEq.add hres'cong
        (Int.ModEq.mul_right (b.tdiv 2) ha'cong)
      refine hcomb.trans ?_
      have heq : res + a * Int.tmod b 2 + a * 2 * b.tdiv 2 = res + a * b := by
        linear_combination (-a) * hsplit
      rw [heq]

/-- `mulmod1` computes `(a*b) mod m` for non-negative operands and positive
modulus. -/
theorem mulmod1_eq (a b m : Int) (ha : 0 ≤ a) (hb : 0 ≤ b) (hm : 0 < m) :
    mulmod1 a b m = (a * b).emod m := by
  obtain ⟨h0, hcong⟩ := mulmod1Loop_spec m (Int.tmod a m) b 0 hm
    (Int.tmod_nonneg m ha) le_rfl hb
  rw [mulmod1, Int.tmod_eq_emod h0 hm.le]
  refine Int.ModEq.eq (hcong.trans ?_)
  rw [zero_add, Int.tmod_eq_emod ha hm.le]
  exact Int.ModEq.mul_right b (Int.mod_modEq a m)

/-- `mulmod` computes `(a*b) mod m` for non-negative operands and positive
modulus. -/
theorem mulmod_eq (a b m : Int) (ha : 0 ≤ a) (hb : 0 ≤ b) (hm : 0 < m) :
    mulmod a b m = (a * b).emod m := by
  have ha0 : 0 ≤ Int.tmod a m := Int.tmod_nonneg m ha
  have hb0 : 0 ≤ Int.tmod b m := Int.tmod_nonneg m hb
  have ham : Int.tmod a m < m := by
    rw [Int.tmod_eq_emod ha hm.le]
    exact Int.emod_lt_of_pos a hm
  rw [mulmod, mulmodLoop_eq m _ _ _ hm ha0 ham le_rfl hm hb0, zero_add]
  refine Int.ModEq.eq ?_
  rw [Int.tmod_eq_emod ha hm.le, Int.tmod_eq_emod hb hm.le]
  exact Int.ModEq.mul (Int.mod_modEq a m) (Int.mod_modEq b m)

end internal

/-- C4: the two modular-multiplication implementations agree, and both return
the value congruent to `a*b` modulo `m` lying in `[0, m)`, for all `a ≥ 0`,
`b ≥ 0`, `m > 0`. -/
theorem C4_mulmod_equiv (a b m : Int) (ha : 0 ≤ a) (hb : 0 ≤ b) (hm : 0 < m) :
    internal.mulmod a b m = internal.mulmod1 a b m ∧
      internal.mulmod a b m ≡ a * b [ZMOD m] ∧
      0 ≤ internal.mulmod a b m ∧ internal.mulmod a b m < m := by
  rw [internal.mulmod_eq a b m ha hb hm, internal.mulmod1_eq a b m ha hb hm]
  exact ⟨rfl, Int.mod_modEq (a * b) m,
    Int.emod_nonneg _ hm.ne', Int.emod_lt_of_pos _ hm⟩

/-! ### `qpp::modpow`: modular exponentiation -/

/-- The square-and-multiply loop of `qpp::modpow`:
`for (; n > 0; n /= 2) { if (n % 2) result = (mulmod1(result, a, p)) % p;
a = (mulmod1(a, a, p)) % p; }`. -/
def modpowLoop (p result a n : Int) : Int :=
  if n > 0 then
    modpowLoop p
      (if Int.tmod n 2 ≠ 0 then Int.tmod (internal.mulmod1 result a p) p
        else result)
      (Int.tmod (internal.mulmod1 a a p) p)
      (n.tdiv 2)
  else result
termination_by n.natAbs
decreasing_by
  have hn : 0 < n := by assumption
  have h1 : (n.tdiv 2).natAbs = n.natAbs / 2 := Int.natAbs_tdiv n 2
  rw [h1]
  exact Nat.div_lt_self (Int.natAbs_pos.mpr hn.ne') (by norm_num)

/-- `qpp::modpow(bigint a, bigint n, bigint p)`. -/
def modpow (a n p : Int) : Except ExcType Int :=
  if a < 0 ∨ n < 0 ∨ p < 1 then .error .OUT_OF_RANGE
  else if a = 0 ∧ n = 0 then .error .OUT_OF_RANGE
  else if a = 0 ∧ 0 < n then .ok 0
  else if n = 0 ∧ p = 1 then .ok 0
  else .ok (modpowLoop p 1 a n)

/-- Correctness of the `modpow` loop for positive exponents. -/
theorem modpowLoop_eq (p result a n : Int) : 0 < p → 0 ≤ a → 0 ≤ result →
    0 < n → modpowLoop p result a n = (result * a ^ n.toNat) % p := by
  induction result, a, n using modpowLoop.induct p with
  | case2 result a n hn =>
      intro _ _ _ hn'
      exact absurd hn' hn
  | case1 result a n hn ih =>
      intro hp ha hres _
      simp only [dite_eq_ite] at ih
      obtain ⟨hsplit, hs⟩ := internal.tmod_two_split n hn.le
      have hq0 : 0 ≤ n.tdiv 2 := Int.tdiv_nonneg hn.le (by norm_num)
      have hm1 : internal.mulmod1 result a p = (result * a) % p :=
        internal.mulmod1_eq result a p hres ha hp
      have hm2 : internal.mulmod1 a a p = (a * a) % p :=
        internal.mulmod1_eq a a p ha ha hp
      have htm : ∀ x : Int, 0 ≤ x → Int.tmod (x % p) p = x % p := fun x _ => by
        rw [Int.tmod_eq_emod (Int.emod_nonneg x (ne_of_gt hp)) hp.le,
          Int.emod_emod]
      have ha' : Int.tmod (internal.mulmod1 a a p) p = (a * a) % p := by
        rw [hm2, htm (a * a) (mul_nonneg ha ha)]
      have hres' : (if Int.tmod n 2 ≠ 0 then
            Int.tmod (internal.mulmod1 result a p) p else result) =
          (if Int.tmod n 2 ≠ 0 then (result * a) % p else result) := by
        split_ifs with h1
        · rw [hm1, htm (result * a) (mul_nonneg hres ha)]
        · rfl
      rw [modpowLoop, if_pos hn, hres', ha']
      rw [hres', ha'] at ih
      by_cases hq : n.tdiv 2 = 0
      · have hs1 : Int.tmod n 2 = 1 := by
          rcases hs with h1 | h1
          · omega
          · exact h1
        have hn1 : n = 1 := by omega
        rw [hq, modpowLoop, if_neg (lt_irrefl 0),
          if_pos (by rw [hs1]; norm_num : Int.tmod n 2 ≠ 0), hn1]
        norm_num
      · have hqpos : 0 < n.tdiv 2 := lt_of_le_of_ne hq0 (Ne.symm hq)
        have hres'0 : 0 ≤ (if Int.tmod n 2 ≠ 0 then (result * a) % p
            else result) := by
          split_ifs with h1
          · exact Int.emod_nonneg _ (ne_of_gt hp)
          · exact hres
        rw [ih hp (Int.emod_nonneg _ (ne_of_gt hp)) hres'0 hqpos]
        refine Int.ModEq.eq ?_
        have hexp : n.toNat = (Int.tmod n 2).toNat + 2 * (n.tdiv 2).toNat := by
          omega
        have hacong : ((a * a) % p) ^ (n.tdiv 2).toNat ≡
            (a * a) ^ (n.tdiv 2).toNat [ZMOD p] :=
          Int.ModEq.pow _ (Int.mod_modEq (a * a) p)
        have hrescong : (if Int.tmod n 2 ≠ 0 then (result * a) % p
            else result) ≡ result * a ^ (Int.tmod n 2).toNat [ZMOD p] := by
          rcases hs with h1 | h1
          · rw [h1, if_neg (by norm_num : ¬((0 : Int) ≠ 0)),
              Int.toNat_zero, pow_zero, mul_one]
          · rw [h1, if_pos (by norm_num : (1 : Int) ≠ 0),
              Int.toNat_one, pow_one]
            exact Int.mod_modEq (result * a) p
        refine (Int.ModEq.mul hrescong hacong).trans ?_
        have heq : result * a ^ (Int.tmod n 2).toNat *
            (a * a) ^ (n.tdiv 2).toNat = result * a ^ n.toNat := by
          rw [hexp, pow_add, pow_mul, pow_two]
          ring
        rw [heq]

/-- `qpp::modpow` computes `a^n mod p` on its non-error domain. -/
theorem modpow_eq (a n p : Int) (ha : 0 ≤ a) (hn : 0 ≤ n) (hp : 0 < p)
    (hz : ¬(a = 0 ∧ n = 0)) (h1 : ¬(n = 0 ∧ p = 1)) :
    modpow a n p = .ok ((a ^ n.toNat) % p) := by
  rw [modpow, if_neg (by omega), if_neg hz]
  by_cases ha0 : a = 0
  · have hnpos : 0 < n := by
      rcases lt_or_eq_of_le hn with h | h
      · exact h
      · exact absurd ⟨ha0, h.symm⟩ hz
    rw [if_pos ⟨ha0, hnpos⟩, ha0,
      zero_pow (by omega : n.toNat ≠ 0), Int.zero_emod]
  · have hapos : 0 < a := lt_of_le_of_ne ha (Ne.symm ha0)
    rw [if_neg (fun hc => ha0 hc.1)]
    by_cases hn0 : n = 0
    · have hp1 : p ≠ 1 := fun hc => h1 ⟨hn0, hc⟩
      have hp2 : (1 : Int) < p := by omega
      rw [if_neg (fun hc => hp1 hc.2), hn0]
      have hloop : modpowLoop p 1 a 0 = 1 := by
        rw [modpowLoop, if_neg (lt_irrefl 0)]
      rw [hloop]
      norm_num
      rw [Int.emod_eq_of_lt (by norm_num) hp2]
    · have hnpos : 0 < n := lt_of_le_of_ne hn (Ne.symm hn0)
      rw [if_neg (fun hc => hn0 hc.1),
        modpowLoop_eq p 1 a n hp ha (by norm_num) hnpos, one_mul]

/-! ### `qpp::factors`: trial division -/

/-- The inner loop of `qpp::factors`:
`while (n % d == 0) { result.push_back(d); n /= d; }` — returns the factors
pushed and the reduced `n`.  The extra guard `2 ≤ d ∧ 0 < n` reflects the only
context in which the loop runs (`d` starts at 2 and `n > 1` before entry) and
makes the recursion well-founded; it does not change the behavior there. -/
def divOut (n d : Int) : List Int × Int :=
  if 2 ≤ d ∧ 0 < n ∧ Int.tmod n d = 0 then
    let t := divOut (n.tdiv d) d
    (d :: t.1, t.2)
  else ([], n)
termination_by n.natAbs
decreasing_by
  rename_i h
  rw [Int.natAbs_tdiv]
  exact Nat.div_lt_self (by omega) (by omega)

theorem divOut_pos (n d : Int) : 0 < n → 0 < (divOut n d).2 ∧ (divOut n d).2 ≤ n := by
  induction n, d using divOut.induct with
  | case1 n d h ih =>
      intro hn
      obtain ⟨hd, hn0, hmod⟩ := h
      have hdvd : d ∣ n := Int.dvd_of_tmod_eq_zero hmod
      have heq : d * n.tdiv d = n := Int.mul_tdiv_cancel' hdvd
      have htpos : 0 < n.tdiv d := by
        rcases lt_trichotomy (n.tdiv d) 0 with hc | hc | hc
        · nlinarith
        · rw [hc, mul_zero] at heq
          omega
        · exact hc
      have hrw : divOut n d =
          (d :: (divOut (n.tdiv d) d).1, (divOut (n.tdiv d) d).2) := by
        rw [divOut, if_pos ⟨hd, hn0, hmod⟩]
      rw [hrw]
      obtain ⟨h1, h2⟩ := ih htpos
      refine ⟨h1, le_trans h2 ?_⟩
      calc n.tdiv d ≤ d * n.tdiv d := le_mul_of_one_le_left htpos.le (by omega)
      _ = n := heq
  | case2 n d h =>
      intro hn
      rw [divOut, if_neg h]
      exact ⟨hn, le_rfl⟩

/-- Specification of the inner loop: the pushed factors are copies of `d`,
their product restores `n`, and the reduced value is no longer divisible. -/
theorem divOut_spec (n d : Int) : 2 ≤ d → 0 < n →
    (divOut n d).1.prod * (divOut n d).2 = n ∧
      ¬ d ∣ (divOut n d).2 ∧ ∀ x ∈ (divOut n d).1, x = d := by
  induction n, d using divOut.induct with
  | case1 n d h ih =>
      intro hd hn
      obtain ⟨-, hn0, hmod⟩ := h
      have hdvd : d ∣ n := Int.dvd_of_tmod_eq_zero hmod
      have heq : d * n.tdiv d = n := Int.mul_tdiv_cancel' hdvd
      have htpos : 0 < n.tdiv d := by
        rcases lt_trichotomy (n.tdiv d) 0 with hc | hc | hc
        · nlinarith
        · rw [hc, mul_zero] at heq
          omega
        · exact hc
      have hrw : divOut n d =
          (d :: (divOut (n.tdiv d) d).1, (divOut (n.tdiv d) d).2) := by
        rw [divOut, if_pos ⟨hd, hn0, hmod⟩]
      rw [hrw]
      obtain ⟨h1, h2, h3⟩ := ih hd htpos
      refine ⟨?_, h2, ?_⟩
      · simp only [List.prod_cons]
        calc d * (divOut (n.tdiv d) d).1.prod * (divOut (n.tdiv d) d).2
            = d * ((divOut (n.tdiv d) d).1.prod * (divOut (n.tdiv d) d).2) := by
              ring
        _ = d * n.tdiv d := by rw [h1]
        _ = n := heq
      · intro x hx
        rcases List.mem_cons.mp hx with hx | hx
        · exact hx
        · exact h3 x hx
  | case2 n d h =>
      intro hd hn
      rw [divOut, if_neg h]
      refine ⟨by simp, ?_, by simp⟩
      intro hdvd
      exact h ⟨hd, hn, Int.tmod_eq_zero_of_dvd hdvd⟩

/-- A list all of whose elements equal `d` is sorted. -/
theorem sorted_of_all_eq (l : List Int) (d : Int) (h : ∀ x ∈ l, x = d) :
    List.Sorted (· ≤ ·) l := by
  induction l with
  | nil => exact List.sorted_nil
  | cons a l ih =>
      rw [List.sorted_cons]
      refine ⟨?_, ih fun x hx => h x (List.mem_cons_of_mem a hx)⟩
      intro b hb
      rw [h a (List.mem_cons_self a l), h b (List.mem_cons_of_mem a hb)]

/-- The outer loop of `qpp::factors`:
`while (n > 1) { while (n % d == 0) {...}; ++d;
if (d * d > n) { if (n > 1) result.push_back(n); break; } }`.
The extra guard `2 ≤ d` reflects the only context in which the loop runs. -/
def factorsLoop (n d : Int) : List Int :=
  if 1 < n ∧ 2 ≤ d then
    let t := divOut n d
    if (d + 1) * (d + 1) > t.2 then
      (if 1 < t.2 then t.1 ++ [t.2] else t.1)
    else t.1 ++ factorsLoop t.2 (d + 1)
  else []
termination_by (2 * n - d).toNat
decreasing_by
  rename_i h hlt
  obtain ⟨hn, hd⟩ := h
  have hb := divOut_pos n d (by omega)
  have hsq : ¬ (d + 1) * (d + 1) > (divOut n d).2 := hlt
  have hdd : d + 1 ≤ (d + 1) * (d + 1) := by nlinarith
  omega

/-- A divisor `d ≥ 2` of `v` is prime when no `e ∈ [2, d)` divides `v`. -/
theorem int_prime_of_no_small_divisor (d v : Int) (hd : 2 ≤ d) (hdvd : d ∣ v)
    (hv : 1 < v) (hinv : ∀ e : Int, 2 ≤ e → e < d → ¬ e ∣ v) : Prime d := by
  rw [Int.prime_iff_natAbs_prime, Nat.prime_def_lt']
  refine ⟨by omega, ?_⟩
  intro m hm2 hmlt hmdvd
  have hmd : (m : Int) ∣ d := by
    have h1 : (m : Int) ∣ (d.natAbs : Int) := Int.natCast_dvd_natCast.mpr hmdvd
    rwa [Int.natAbs_of_nonneg (by omega)] at h1
  exact hinv m (by exact_mod_cast hm2) (by omega) (hmd.trans hdvd)

/-- A `v > 1` with no divisor in `[2, dp)` and `v < dp*dp` is prime. -/
theorem int_prime_of_sqrt (v dp : Int) (hv : 1 < v) (hdp : 0 < dp)
    (hsq : v < dp * dp) (hinv : ∀ e : Int, 2 ≤ e → e < dp → ¬ e ∣ v) :
    Prime v := by
  rw [Int.prime_iff_natAbs_prime]
  by_contra hnp
  have hmf := Nat.minFac_prime (by omega : v.natAbs ≠ 1)
  have hmfd : v.natAbs.minFac ∣ v.natAbs := Nat.minFac_dvd _
  have hsqle : v.natAbs.minFac * v.natAbs.minFac ≤ v.natAbs := by
    have h := Nat.minFac_sq_le_self (by omega : 0 < v.natAbs) hnp
    rwa [pow_two] at h
  have he2 : (2 : Int) ≤ (v.natAbs.minFac : Int) := by
    exact_mod_cast hmf.two_le
  have hedvd : (v.natAbs.minFac : Int) ∣ v := by
    have h1 : (v.natAbs.minFac : Int) ∣ (v.natAbs : Int) :=
      Int.natCast_dvd_natCast.mpr hmfd
    rwa [Int.natAbs_of_nonneg (by omega)] at h1
  have hee : (v.natAbs.minFac : Int) * (v.natAbs.minFac : Int) ≤ v := by
    have h1 : ((v.natAbs.minFac * v.natAbs.minFac : Nat) : Int) ≤
        (v.natAbs : Int) := by exact_mod_cast hsqle
    push_cast at h1
    rwa [abs_of_pos (by omega : (0 : Int) < v)] at h1
  have helt : (v.natAbs.minFac : Int) < dp := by nlinarith
  exact hinv _ he2 helt hedvd

/-- Specification of the outer trial-division loop, under the invariant that
no candidate below `d` divides `n`: the result is a sorted list of primes
(each at least `d`) whose product is `n`. -/
theorem factorsLoop_spec (n d : Int) : 1 < n → 2 ≤ d →
    (∀ e : Int, 2 ≤ e → e < d → ¬ e ∣ n) →
    (factorsLoop n d).prod = n ∧
      (∀ x ∈ factorsLoop n d, Prime x ∧ d ≤ x) ∧
      List.Sorted (· ≤ ·) (factorsLoop n d) := by
  induction n, d using factorsLoop.induct with
  | case1 n d h t hsq h2 =>
      intro hn hd hinv
      have hsq' : (d + 1) * (d + 1) > (divOut n d).2 := hsq
      have h2' : 1 < (divOut n d).2 := h2
      obtain ⟨hprod, hnd, hall⟩ := divOut_spec n d hd (by omega)
      have hrw : factorsLoop n d = (divOut n d).1 ++ [(divOut n d).2] := by
        rw [factorsLoop, if_pos h]
        show (if (d + 1) * (d + 1) > (divOut n d).2 then
            (if 1 < (divOut n d).2 then (divOut n d).1 ++ [(divOut n d).2]
              else (divOut n d).1)
          else (divOut n d).1 ++ factorsLoop (divOut n d).2 (d + 1)) = _
        rw [if_pos hsq', if_pos h2']
      have ht2dvd : (divOut n d).2 ∣ n := by
        refine ⟨(divOut n d).1.prod, ?_⟩
        linear_combination -hprod
      have hinv' : ∀ e : Int, 2 ≤ e → e < d + 1 → ¬ e ∣ (divOut n d).2 := by
        intro e he2 helt hedvd
        rcases lt_or_eq_of_le (by omega : e ≤ d) with hlt | heq
        · exact hinv e he2 hlt (hedvd.trans ht2dvd)
        · rw [heq] at hedvd
          exact hnd hedvd
      have hdn : ∀ x ∈ (divOut n d).1, d ∣ n := fun x hx =>
        (hall x hx ▸ List.dvd_prod hx).trans ⟨(divOut n d).2, hprod.symm⟩
      have ht2ged : d + 1 ≤ (divOut n d).2 := by
        by_contra hc
        exact hinv' (divOut n d).2 (by omega) (by omega) dvd_rfl
      have ht2prime : Prime (divOut n d).2 :=
        int_prime_of_sqrt (divOut n d).2 (d + 1) h2' (by omega) hsq' hinv'
      rw [hrw]
      refine ⟨?_, ?_, ?_⟩
      · rw [List.prod_append, List.prod_singleton]
        exact hprod
      · intro x hx
        rcases List.mem_append.mp hx with hx | hx
        · have hxd := hall x hx
          subst hxd
          exact ⟨int_prime_of_no_small_divisor x n hd (hdn x hx) hn hinv,
            le_rfl⟩
        · rw [List.mem_singleton.mp hx]
          exact ⟨ht2prime, by omega⟩
      · refine List.pairwise_append.mpr
          ⟨sorted_of_all_eq _ d hall, List.sorted_singleton _, ?_⟩
        intro x hx y hy
        rw [hall x hx, List.mem_singleton.mp hy]
        omega
  | case2 n d h t hsq h2 =>
      intro hn hd hinv
      have hsq' : (d + 1) * (d + 1) > (divOut n d).2 := hsq
      have h2' : ¬ 1 < (divOut n d).2 := h2
      obtain ⟨hprod, hnd, hall⟩ := divOut_spec n d hd (by omega)
      have hpos := divOut_pos n d (by omega)
      have ht21 : (divOut n d).2 = 1 := by omega
      have hrw : factorsLoop n d = (divOut n d).1 := by
        rw [factorsLoop, if_pos h]
        show (if (d + 1) * (d + 1) > (divOut n d).2 then
            (if 1 < (divOut n d).2 then (divOut n d).1 ++ [(divOut n d).2]
              else (divOut n d).1)
          else (divOut n d).1 ++ factorsLoop (divOut n d).2 (d + 1)) = _
        rw [if_pos hsq', if_neg h2']
      have hdn : ∀ x ∈ (divOut n d).1, d ∣ n := fun x hx =>
        (hall x hx ▸ List.dvd_prod hx).trans ⟨(divOut n d).2, hprod.symm⟩
      rw [hrw]
      refine ⟨?_, ?_, sorted_of_all_eq _ d hall⟩
      · rw [ht21, mul_one] at hprod
        exact hprod
      · intro x hx
        have hxd := hall x hx
        subst hxd
        exact ⟨int_prime_of_no_small_divisor x n hd (hdn x hx) hn hinv,
          le_rfl⟩
  | case3 n d h t hsq ih =>
      intro hn hd hinv
      have hsq' : ¬ (d + 1) * (d + 1) > (divOut n d).2 := hsq
      obtain ⟨hprod, hnd, hall⟩ := divOut_spec n d hd (by omega)
      have hpos := divOut_pos n d (by omega)
      have hrw : factorsLoop n d =
          (divOut n d).1 ++ factorsLoop (divOut n d).2 (d + 1) := by
        rw [factorsLoop, if_pos h]
        show (if (d + 1) * (d + 1) > (divOut n d).2 then
            (if 1 < (divOut n d).2 then (divOut n d).1 ++ [(divOut n d).2]
              else (divOut n d).1)
          else (divOut n d).1 ++ factorsLoop (divOut n d).2 (d + 1)) = _
        rw [if_neg hsq']
      have ht2dvd : (divOut n d).2 ∣ n := by
        refine ⟨(divOut n d).1.prod, ?_⟩
        linear_combination -hprod
      have hinv' : ∀ e : Int, 2 ≤ e → e < d + 1 → ¬ e ∣ (divOut n d).2 := by
        intro e he2 helt hedvd
        rcases lt_or_eq_of_le (by omega : e ≤ d) with hlt | heq
        · exact hinv e he2 hlt (hedvd.trans ht2dvd)
        · rw [heq] at hedvd
          exact hnd hedvd
      have hdd1 : d + 1 ≤ (d + 1) * (d + 1) := by nlinarith
      have ht2big : 1 < (divOut n d).2 := by omega
      obtain ⟨ihp, ihm, ihs⟩ := ih ht2big (by omega) hinv'
      have hdn : ∀ x ∈ (divOut n d).1, d ∣ n := fun x hx =>
        (hall x hx ▸ List.dvd_prod hx).trans ⟨(divOut n d).2, hprod.symm⟩
      rw [hrw]
      refine ⟨?_, ?_, ?_⟩
      · rw [List.prod_append, ihp]
        exact hprod
      · intro x hx
        rcases List.mem_append.mp hx with hx | hx
        · have hxd := hall x hx
          subst hxd
          exact ⟨int_prime_of_no_small_divisor x n hd (hdn x hx) hn hinv,
            le_rfl⟩
        · obtain ⟨hxp, hxge⟩ := ihm x hx
          exact ⟨hxp, by omega⟩
      · refine List.pairwise_append.mpr ⟨sorted_of_all_eq _ d hall, ihs, ?_⟩
        intro x hx y hy
        have := (ihm y hy).2
        rw [hall x hx]
        omega
  | case4 n d h =>
      intro hn hd hinv
      exact absurd ⟨hn, hd⟩ h

/-- `qpp::factors(bigint n)`: normalizes the sign, rejects `0, ±1`, and runs
trial division from `d = 2`. -/
def factors (n0 : Int) : Except ExcType (List Int) :=
  let n := if n0 < 0 then -n0 else n0
  if n = 0 ∨ n = 1 then .error .OUT_OF_RANGE
  else .ok (factorsLoop n 2)

/-- C7: for every `n` with `|n| ≥ 2`, `qpp::factors` returns a non-decreasing
list of primes whose product is `|n|` (so for `n > 1` the product is `n`). -/
theorem C7_factors_correct (n : Int) (h : 2 ≤ |n|) :
    ∃ l, factors n = .ok l ∧ l.prod = |n| ∧ (∀ x ∈ l, Prime x) ∧
      List.Sorted (· ≤ ·) l ∧ (1 < n → l.prod = n) := by
  have habs : (if n < 0 then -n else n) = |n| := by
    by_cases hc : n < 0
    · rw [if_pos hc, abs_of_neg hc]
    · rw [if_neg hc, abs_of_nonneg (not_lt.mp hc)]
  obtain ⟨hp, hm, hs⟩ := factorsLoop_spec |n| 2 (by omega) le_rfl
    (fun e he2 helt _ => by omega)
  refine ⟨factorsLoop |n| 2, ?_, hp, fun x hx => (hm x hx).1, hs, ?_⟩
  · rw [factors]
    show (if (if n < 0 then -n else n) = 0 ∨ (if n < 0 then -n else n) = 1
        then (.error .OUT_OF_RANGE : Except ExcType (List Int))
      else .ok (factorsLoop (if n < 0 then -n else n) 2)) = _
    rw [habs, if_neg (by omega)]
  · intro hn1
    rw [hp, abs_of_pos (by omega)]

/-- Witness for C7 at `n = 360`. -/
theorem C7_factors_correct_witness :
    (2 : Int) ≤ |(360 : Int)| ∧
      (∃ l, factors 360 = .ok l ∧ l.prod = |(360 : Int)| ∧
        (∀ x ∈ l, Prime x) ∧ List.Sorted (· ≤ ·) l ∧
        (1 < (360 : Int) → l.prod = 360)) :=
  ⟨by norm_num, C7_factors_correct 360 (by norm_num)⟩

/-! ### Permutation algebra: `qpp::invperm`, `qpp::compperm` -/

namespace internal

/-- Modelled from the spec: `internal::_check_perm` is declared in a header
that is not part of this source file.  Per the spec (§3), a valid permutation
of size `N` is "an ordered sequence of non-negative indices of length N that
is a bijection on {0, …, N-1} (each value in range, each value appears
exactly once)". -/
def _check_perm (perm : List Nat) : Bool :=
  perm.all (fun x => x < perm.length) && decide perm.Nodup

theorem check_perm_iff (perm : List Nat) :
    _check_perm perm = true ↔
      (∀ x ∈ perm, x < perm.length) ∧ perm.Nodup := by
  rw [_check_perm, Bool.and_eq_true, List.all_eq_true, decide_eq_true_iff]
  constructor
  · rintro ⟨h1, h2⟩
    exact ⟨fun x hx => by simpa using h1 x hx, h2⟩
  · rintro ⟨h1, h2⟩
    exact ⟨fun x hx => by simpa using h1 x hx, h2⟩

end internal

/-- The scatter loop of `qpp::invperm`: `result[perm[i]] = i` for
`i = 0, …, N-1` over `std::vector<idx> result(perm.size())`
(zero-initialized). -/
def invpermScatter (perm : List Nat) : List Nat :=
  (List.range perm.length).foldl
    (fun res i => res.set (perm.getD i 0) i)
    (List.replicate perm.length 0)

/-- `qpp::invperm(perm)`. -/
def invperm (perm : List Nat) : Except ExcType (List Nat) :=
  if !internal._check_perm perm then .error .PERM_INVALID
  else .ok (invpermScatter perm)

/-- `qpp::compperm(perm, sigma)`: `result[i] = perm[sigma[i]]`. -/
def compperm (perm sigma : List Nat) : Except ExcType (List Nat) :=
  if !internal._check_perm perm then .error .PERM_INVALID
  else if !internal._check_perm sigma then .error .PERM_INVALID
  else if perm.length ≠ sigma.length then .error .PERM_INVALID
  else .ok ((List.range perm.length).map fun i => perm.getD (sigma.getD i 0) 0)

theorem getD_eq_get (l : List Nat) (n : Nat) (h : n < l.length) :
    l.getD n 0 = l[n] := by
  rw [List.getD_eq_getElem?_getD, List.getElem?_eq_getElem h, Option.getD_some]

/-- After scattering the first `k` indices, the result still has length `N`
and reads back `i` at position `perm[i]` for every `i < k`. -/
theorem invpermScatter_aux (p : List Nat) (hval : ∀ x ∈ p, x < p.length)
    (hnd : p.Nodup) :
    ∀ k, k ≤ p.length →
      ((List.range k).foldl (fun res i => res.set (p.getD i 0) i)
          (List.replicate p.length 0)).length = p.length ∧
        ∀ i, i < k →
          ((List.range k).foldl (fun res i => res.set (p.getD i 0) i)
            (List.replicate p.length 0)).getD (p.getD i 0) 0 = i := by
  intro k
  induction k with
  | zero =>
      intro _
      refine ⟨by simp, ?_⟩
      intro i hi
      omega
  | succ k ih =>
      intro hk1
      obtain ⟨ihlen, ihget⟩ := ih (by omega)
      have hstep : (List.range (k + 1)).foldl
            (fun res i => res.set (p.getD i 0) i)
            (List.replicate p.length 0) =
          ((List.range k).foldl (fun res i => res.set (p.getD i 0) i)
            (List.replicate p.length 0)).set (p.getD k 0) k := by
        rw [List.range_succ, List.foldl_append, List.foldl_cons, List.foldl_nil]
      refine ⟨by rw [hstep, List.length_set, ihlen], ?_⟩
      intro i hik
      rw [hstep]
      have hpk : p.getD k 0 < p.length := by
        rw [getD_eq_get p k (by omega)]
        exact hval _ (List.getElem_mem _)
      by_cases hi : i = k
      · subst hi
        rw [getD_eq_get _ _ (by rw [List.length_set, ihlen]; exact hpk)]
        exact List.getElem_set_self _
      · have hne : p.getD k 0 ≠ p.getD i 0 := by
          rw [getD_eq_get p i (by omega), getD_eq_get p k (by omega)]
          intro hc
          exact hi (((List.Nodup.getElem_inj_iff hnd).mp hc).symm)
        have hpi : p.getD i 0 < p.length := by
          rw [getD_eq_get p i (by omega)]
          exact hval _ (List.getElem_mem _)
        rw [getD_eq_get _ _ (by rw [List.length_set, ihlen]; exact hpi),
          List.getElem_set_ne hne,
          ← getD_eq_get _ _ (by rw [ihlen]; exact hpi)]
        exact ihget i (by omega)

theorem invpermScatter_length (p : List Nat) (hval : ∀ x ∈ p, x < p.length)
    (hnd : p.Nodup) : (invpermScatter p).length = p.length :=
  (invpermScatter_aux p hval hnd p.length le_rfl).1

theorem invpermScatter_getD (p : List Nat) (hval : ∀ x ∈ p, x < p.length)
    (hnd : p.Nodup) (i : Nat) (hi : i < p.length) :
    (invpermScatter p).getD (p.getD i 0) 0 = i :=
  (invpermScatter_aux p hval hnd p.length le_rfl).2 i hi

/-- A bounded nodup list of full length hits every value below its length. -/
theorem perm_surj (p : List Nat) (hval : ∀ x ∈ p, x < p.length)
    (hnd : p.Nodup) (q : Nat) (hq : q < p.length) :
    ∃ i, ∃ h : i < p.length, p[i] = q := by
  have hsub : p.toFinset ⊆ Finset.range p.length := fun x hx =>
    Finset.mem_range.mpr (hval x (List.mem_toFinset.mp hx))
  have hcard : (Finset.range p.length).card ≤ p.toFinset.card := by
    rw [Finset.card_range, List.toFinset_card_of_nodup hnd]
  have heq := Finset.eq_of_subset_of_card_le hsub hcard
  have hqmem : q ∈ p := by
    rw [← List.mem_toFinset, heq]
    exact Finset.mem_range.mpr hq
  exact List.mem_iff_getElem.mp hqmem

/-- The inverse reads back correctly from the other side. -/
theorem invpermScatter_right (p : List Nat) (hval : ∀ x ∈ p, x < p.length)
    (hnd : p.Nodup) (q : Nat) (hq : q < p.length) :
    (invpermScatter p).getD q 0 < p.length ∧
      p.getD ((invpermScatter p).getD q 0) 0 = q := by
  obtain ⟨i, hi, hpi⟩ := perm_surj p hval hnd q hq
  have hkey : (invpermScatter p).getD q 0 = i := by
    rw [← hpi, ← getD_eq_get p i hi]
    exact invpermScatter_getD p hval hnd i hi
  rw [hkey]
  exact ⟨hi, by rw [getD_eq_get p i hi]; exact hpi⟩

/-- The constructed inverse passes the permutation check. -/
theorem invpermScatter_check (p : List Nat) (hval : ∀ x ∈ p, x < p.length)
    (hnd : p.Nodup) : internal._check_perm (invpermScatter p) = true := by
  rw [internal.check_perm_iff]
  have hlen := invpermScatter_length p hval hnd
  constructor
  · intro x hx
    obtain ⟨q, hq, hxq⟩ := List.mem_iff_getElem.mp hx
    have hq' : q < p.length := by rwa [hlen] at hq
    have := (invpermScatter_right p hval hnd q hq').1
    rw [← hxq, ← getD_eq_get _ q hq, hlen]
    exact this
  · rw [List.Nodup, List.pairwise_iff_getElem]
    intro i j hi hj hij
    intro hc
    have hi' : i < p.length := by rwa [hlen] at hi
    have hj' : j < p.length := by rwa [hlen] at hj
    have h1 := (invpermScatter_right p hval hnd i hi').2
    have h2 := (invpermScatter_right p hval hnd j hj').2
    rw [getD_eq_get _ i hi, getD_eq_get _ j hj] at *
    rw [hc] at h1
    rw [h1] at h2
    omega

/-- C8: for every valid permutation `p`, composing with `invperm p` on either
side yields the identity permutation `[0, 1, …, N-1]`. -/
theorem C8_perm_inverse (p : List Nat)
    (hp : internal._check_perm p = true) :
    ∃ q, invperm p = .ok q ∧
      compperm p q = .ok (List.range p.length) ∧
      compperm q p = .ok (List.range p.length) := by
  obtain ⟨hval, hnd⟩ := (internal.check_perm_iff p).mp hp
  have hqcheck := invpermScatter_check p hval hnd
  have hqlen := invpermScatter_length p hval hnd
  refine ⟨invpermScatter p, ?_, ?_, ?_⟩
  · rw [invperm, hp]
    rfl
  · rw [compperm, hp, hqcheck]
    show (if p.length ≠ (invpermScatter p).length then
        (.error .PERM_INVALID : Except ExcType (List Nat))
      else .ok ((List.range p.length).map
        fun i => p.getD ((invpermScatter p).getD i 0) 0)) = _
    rw [if_neg (by omega)]
    refine congrArg Except.ok (List.ext_getElem (by simp) ?_)
    intro i hi1 hi2
    have hi : i < p.length := by simpa using hi2
    simp only [List.getElem_map, List.getElem_range]
    rw [(invpermScatter_right p hval hnd i hi).2]
  · rw [compperm, hqcheck, hp]
    show (if (invpermScatter p).length ≠ p.length then
        (.error .PERM_INVALID : Except ExcType (List Nat))
      else .ok ((List.range (invpermScatter p).length).map
        fun i => (invpermScatter p).getD (p.getD i 0) 0)) = _
    rw [if_neg (by omega), hqlen]
    refine congrArg Except.ok (List.ext_getElem (by simp) ?_)
    intro i hi1 hi2
    have hi : i < p.length := by simpa using hi2
    simp only [List.getElem_map, List.getElem_range]
    rw [invpermScatter_getD p hval hnd i hi]

/-- Witness for C8 at `p = [2, 0, 1]`. -/
theorem C8_perm_inverse_witness :
    internal._check_perm [2, 0, 1] = true ∧
      (∃ q, invperm [2, 0, 1] = .ok q ∧
        compperm [2, 0, 1] q = .ok (List.range ([2, 0, 1] : List Nat).length) ∧
        compperm q [2, 0, 1] = .ok (List.range ([2, 0, 1] : List Nat).length)) :=
  ⟨by decide, C8_perm_inverse [2, 0, 1] (by decide)⟩

/-! ### `qpp::contfrac2x`

The C++ function computes with IEEE doubles; the embedding uses exact
rationals (`ℚ`) in their place.  The claims checked here only exercise the
exception paths, which are decided before any arithmetic. -/

/-- The backward evaluation loop of `qpp::contfrac2x`:
`for (idx i = n - 2; i != 0; --i) tmp = 1. / (tmp + cf[i]);`
`contfrac2xLoop cf i tmp` folds indices `i, i-1, …, 1`. -/
def contfrac2xLoop (cf : List Int) : Nat → ℚ → ℚ
  | 0, tmp => tmp
  | i + 1, tmp => contfrac2xLoop cf i (1 / (tmp + ((cf.getD (i + 1) 0 : Int) : ℚ)))

/-- `qpp::contfrac2x(cf, n)` (the overload taking a term count). -/
def contfrac2x (cf : List Int) (n : Nat) : Except ExcType ℚ :=
  if cf.length = 0 then .error .ZERO_SIZE
  else if n = 0 then .error .OUT_OF_RANGE
  else
    let n := if n > cf.length then cf.length else n
    if n = 1 then .ok ((cf.getD 0 0 : Int) : ℚ)
    else .ok (((cf.getD 0 0 : Int) : ℚ) +
      contfrac2xLoop cf (n - 2) (1 / ((cf.getD (n - 1) 0 : Int) : ℚ)))

/-- C9 (amended): the boundary calls `gcd(0,0)`, `lcm(0,0)`, `modpow(0,0,p)`
with `p ≥ 1` fail with the out-of-range kind, `contfrac2x` on an empty vector
fails with the zero-size kind, and `invperm([0,0])` (not a bijection) fails
with the invalid-permutation kind; none of them returns a result.  (The
original claim asserted the out-of-range kind for `invperm([0,0])`; the code
raises `PERM_INVALID` there — see the counterexample.) -/
theorem C9_boundary_errors :
    gcd 0 0 = .error .OUT_OF_RANGE ∧
    lcm 0 0 = .error .OUT_OF_RANGE ∧
    (∀ p : Int, 1 ≤ p → modpow 0 0 p = .error .OUT_OF_RANGE) ∧
    (∀ n : Nat, contfrac2x [] n = .error .ZERO_SIZE) ∧
    invperm [0, 0] = .error .PERM_INVALID := by
  refine ⟨?_, ?_, ?_, ?_, ?_⟩
  · rw [gcd, if_pos ⟨rfl, rfl⟩]
  · rw [lcm, if_pos ⟨rfl, rfl⟩]
  · intro p hp
    rw [modpow, if_neg (by omega), if_pos ⟨rfl, rfl⟩]
  · intro n
    rw [contfrac2x, if_pos (by rfl : ([] : List Int).length = 0)]
  · rfl

/-- Witness for C9: the `modpow` and `contfrac2x` parts instantiated at
`p = 7` and `n = 3`. -/
theorem C9_boundary_errors_witness :
    ((1 : Int) ≤ 7 ∧ modpow 0 0 7 = .error .OUT_OF_RANGE) ∧
      contfrac2x [] 3 = .error .ZERO_SIZE :=
  ⟨⟨by norm_num, C9_boundary_errors.2.2.1 7 (by norm_num)⟩,
    C9_boundary_errors.2.2.2.1 3⟩

/-- C9 counterexample: `invperm([0,0])` raises the invalid-permutation kind,
not the out-of-range kind the claim states. -/
theorem C9_invperm_counterexample :
    invperm [0, 0] = .error .PERM_INVALID ∧
      ExcType.PERM_INVALID ≠ ExcType.OUT_OF_RANGE := by
  exact ⟨rfl, by decide⟩

/-! ### `qpp::isprime`: Fermat filter plus Miller-Rabin rounds -/

/-- The two-adic counting loop of `qpp::isprime`:
`for (bigint i = n - 1; i % 2 == 0; ++u, i /= 2);` — returns the final count
`u` together with the final (odd) value of `i`.  The guard `0 < i` reflects
the only context in which the loop runs (`i` starts at `n - 1 ≥ 3`). -/
def v2loop (i : Int) : Nat × Int :=
  if 0 < i ∧ Int.tmod i 2 = 0 then
    ((v2loop (i.tdiv 2)).1 + 1, (v2loop (i.tdiv 2)).2)
  else (0, i)
termination_by i.natAbs
decreasing_by
  rename_i h
  rw [Int.natAbs_tdiv]
  exact Nat.div_lt_self (by omega) (by norm_num)

theorem v2loop_spec (i : Int) : 0 < i →
    i = 2 ^ (v2loop i).1 * (v2loop i).2 ∧
      Int.tmod (v2loop i).2 2 ≠ 0 ∧ 0 < (v2loop i).2 := by
  induction i using v2loop.induct with
  | case1 i h ih =>
      intro hi
      obtain ⟨-, hmod⟩ := h
      have hdvd : (2 : Int) ∣ i := Int.dvd_of_tmod_eq_zero hmod
      have heq : 2 * i.tdiv 2 = i := Int.mul_tdiv_cancel' hdvd
      have hpos : 0 < i.tdiv 2 := by omega
      obtain ⟨ih1, ih2, ih3⟩ := ih hpos
      have hrw : v2loop i =
          ((v2loop (i.tdiv 2)).1 + 1, (v2loop (i.tdiv 2)).2) := by
        rw [v2loop, if_pos ⟨hi, hmod⟩]
      rw [hrw]
      refine ⟨?_, ih2, ih3⟩
      calc i = 2 * i.tdiv 2 := heq.symm
      _ = 2 * (2 ^ (v2loop (i.tdiv 2)).1 * (v2loop (i.tdiv 2)).2) := by
            rw [← ih1]
      _ = 2 ^ ((v2loop (i.tdiv 2)).1 + 1) * (v2loop (i.tdiv 2)).2 := by
            rw [pow_succ]
            ring
  | case2 i h =>
      intro hi
      rw [v2loop, if_neg h]
      refine ⟨by norm_num, ?_, hi⟩
      intro hc
      exact h ⟨hi, hc⟩

/-- Outcome of the inner squaring loop. -/
inductive SqRes where
  | composite
  | jumped
  | exhausted (z : Int)
  deriving DecidableEq

/-- The inner squaring loop of `qpp::isprime`:
`for (idx j = 0; j < u; ++j) { z = ((z % n) * (z % n)) % n;
if (z == 1) return false; if (z == n - 1) { jump = true; break; } }`.
`composite` is the `return false`, `jumped` the `break`, `exhausted z` the
loop running to completion with final value `z`. -/
def sqLoop (n : Int) : Int → Nat → SqRes
  | z, 0 => .exhausted z
  | z, b + 1 =>
      let z' := Int.tmod (Int.tmod z n * Int.tmod z n) n
      if z' = 1 then .composite
      else if z' = n - 1 then .jumped
      else sqLoop n z' b

/-- The witness loop of `qpp::isprime` (`for (idx i = 0; i < k; ++i)`), with
`a = rand(2, n - 2)` drawn at call identifier `t + 1 + i`. -/
def mrRounds (n r : Int) (u : Nat) (rnd : Nat → Int → Int → Int) (t : Nat) :
    Nat → Nat → Except ExcType Bool
  | 0, _ => .ok true
  | k + 1, i =>
      (modpow (rnd (t + 1 + i) 2 (n - 2)) r n).bind fun z =>
        if z = 1 ∨ z = n - 1 then mrRounds n r u rnd t k (i + 1)
        else
          match sqLoop n z u with
          | .jumped => mrRounds n r u rnd t k (i + 1)
          | _ => .ok false

/-- `qpp::isprime(bigint n, idx k = 80)`.  The Fermat witness
`x = rand(2, n - 1)` is drawn at call identifier `t`, the `i`-th round
witness at `t + 1 + i`.  The source computes
`r = (n - 1) / static_cast<bigint>(std::llround(std::pow(2, u)))`; for every
`u` with `2^u ∣ n - 1` representable in `bigint`, `std::pow(2, u)` is exact,
so this is modelled as division by `2 ^ u`. -/
def isprime (n0 : Int) (k : Nat) (rnd : Nat → Int → Int → Int) (t : Nat) :
    Except ExcType Bool :=
  let n := if n0 < 0 then -n0 else n0
  if n < 2 then .error .OUT_OF_RANGE
  else if n = 2 ∨ n = 3 then .ok true
  else
    (modpow (rnd t 2 (n - 1)) (n - 1) n).bind fun fx =>
      if fx ≠ 1 then .ok false
      else
        mrRounds n ((n - 1).tdiv (2 ^ (v2loop (n - 1)).1))
          (v2loop (n - 1)).1 rnd t k 0

/-- The random source produces a value inside every well-formed requested
range. -/
def GoodRand (rnd : Nat → Int → Int → Int) : Prop :=
  ∀ t lo hi, lo ≤ hi → lo ≤ rnd t lo hi ∧ rnd t lo hi ≤ hi

/-- Fuel-indexed modular exponentiation over `Nat`; a proof vehicle whose
kernel evaluation is fast (structural recursion, machine-level `Nat` ops). -/
def powModAux : Nat → Nat → Nat → Nat → Nat
  | 0, _, _, m => 1 % m
  | f + 1, a, e, m =>
      if e = 0 then 1 % m
      else
        if e % 2 = 1 then (powModAux f ((a * a) % m) (e / 2) m * a) % m
        else powModAux f ((a * a) % m) (e / 2) m

theorem powModAux_eq (f : Nat) : ∀ a e m : Nat, 0 < m → e < 2 ^ f →
    powModAux f a e m = a ^ e % m := by
  induction f with
  | zero =>
      intro a e m hm he
      have he0 : e = 0 := by
        have : (2 : Nat) ^ 0 = 1 := by norm_num
        omega
      rw [he0, powModAux, pow_zero]
  | succ f ih =>
      intro a e m hm he
      by_cases he0 : e = 0
      · rw [he0, powModAux]
        simp
      · have hlt : e / 2 < 2 ^ f := by
          have h2 : (2 : Nat) ^ (f + 1) = 2 ^ f * 2 := by rw [pow_succ]
          omega
        have hrec := ih ((a * a) % m) (e / 2) m hm hlt
        have hsq : ((a * a) % m) ^ (e / 2) % m = a ^ (2 * (e / 2)) % m := by
          rw [← Nat.pow_mod, ← pow_two, ← pow_mul]
        by_cases hpar : e % 2 = 1
        · have hexp : e = 2 * (e / 2) + 1 := by omega
          rw [powModAux, if_neg he0, if_pos hpar, hrec, hsq,
            Nat.mod_mul_mod, ← pow_succ, ← hexp]
        · have hexp : e = 2 * (e / 2) := by omega
          rw [powModAux, if_neg he0, if_neg hpar, hrec, hsq, ← hexp]

/-- Balanced divide-and-conquer check of a decidable predicate on the range
`[lo, lo + len)`; the fuel keeps the recursion structural so the kernel can
evaluate it without deep recursion. -/
def rangeCheck (P : Nat → Bool) : Nat → Nat → Nat → Bool
  | 0, _, len => len == 0
  | f + 1, lo, len =>
      if len == 0 then true
      else if len == 1 then P lo
      else rangeCheck P f lo (len / 2) &&
        rangeCheck P f (lo + len / 2) (len - len / 2)

theorem rangeCheck_sound (P : Nat → Bool) (f : Nat) : ∀ lo len : Nat,
    rangeCheck P f lo len = true →
    ∀ x : Nat, lo ≤ x → x < lo + len → P x = true := by
  induction f with
  | zero =>
      intro lo len h x h1 h2
      rw [rangeCheck] at h
      have : len = 0 := by simpa using h
      omega
  | succ f ih =>
      intro lo len h x h1 h2
      rw [rangeCheck] at h
      by_cases h0 : len = 0
      · omega
      · rw [if_neg (by simpa using h0)] at h
        by_cases hone : len = 1
        · rw [if_pos (by simpa using hone)] at h
          have hx : x = lo := by omega
          rwa [hx]
        · rw [if_neg (by simpa using hone)] at h
          rw [Bool.and_eq_true] at h
          by_cases hx : x < lo + len / 2
          · exact ih lo (len / 2) h.1 x h1 hx
          · exact ih (lo + len / 2) (len - len / 2) h.2 x (by omega) (by omega)

/-- A `rangeCheck` certificate establishes a bounded-quantifier fact over
`Finset.Icc`. -/
theorem icc_of_rangeCheck (P : Nat → Prop) [DecidablePred P] (f lo hi : Nat)
    (h : rangeCheck (fun x => decide (P x)) f lo (hi + 1 - lo) = true) :
    ∀ x ∈ Finset.Icc lo hi, P x := by
  intro x hx
  rw [Finset.mem_Icc] at hx
  have hb := rangeCheck_sound _ f lo (hi + 1 - lo) h x hx.1 (by omega)
  exact of_decide_eq_true hb

/-- Uniqueness of the 2-adic decomposition over `Int` (with `tmod`-style
oddness, matching `v2loop_spec`). -/
theorem two_adic_unique (u : Nat) : ∀ (u' : Nat) (r r' : Int),
    Int.tmod r 2 ≠ 0 → Int.tmod r' 2 ≠ 0 → 2 ^ u * r = 2 ^ u' * r' →
    u = u' ∧ r = r' := by
  induction u with
  | zero =>
      intro u' r r' hr hr' h
      cases u' with
      | zero =>
          refine ⟨rfl, ?_⟩
          simpa using h
      | succ s =>
          exfalso
          apply hr
          have hrw : r = 2 * (2 ^ s * r') := by
            rw [pow_zero, one_mul] at h
            rw [h, pow_succ]
            ring
          rw [hrw]
          exact Int.mul_tmod_right 2 _
  | succ s ih =>
      intro u' r r' hr hr' h
      cases u' with
      | zero =>
          exfalso
          apply hr'
          have hrw : r' = 2 * (2 ^ s * r) := by
            rw [pow_zero, one_mul] at h
            rw [← h, pow_succ]
            ring
          rw [hrw]
          exact Int.mul_tmod_right 2 _
      | succ s' =>
          have h2 : 2 ^ s * r = 2 ^ s' * r' := by
            have h' : (2 : Int) * (2 ^ s * r) = 2 * (2 ^ s' * r') := by
              linear_combination h
            exact mul_left_cancel₀ (by norm_num) h'
          obtain ⟨h1, h2'⟩ := ih s' r r' hr hr' h2
          exact ⟨by omega, h2'⟩

/-- Evaluating `v2loop` at a number with known 2-adic decomposition. -/
theorem v2loop_eval (i : Int) (u : Nat) (r : Int) (hrpos : 0 < r)
    (hrodd : Int.tmod r 2 ≠ 0) (heq : i = 2 ^ u * r) : v2loop i = (u, r) := by
  have hipos : 0 < i := by
    rw [heq]
    exact mul_pos (by positivity) hrpos
  obtain ⟨h1, h2, h3⟩ := v2loop_spec i hipos
  obtain ⟨hu, hr2⟩ := two_adic_unique (v2loop i).1 u (v2loop i).2 r h2 hrodd
    (by rw [← h1, heq])
  rw [Prod.ext_iff]
  exact ⟨hu, hr2⟩

/-- If every in-range Fermat witness passes and every in-range round witness
passes, `isprime` answers `true` whatever the random source does. -/
theorem isprime_true_of_checks (n : Int) (k : Nat)
    (rnd : Nat → Int → Int → Int) (t : Nat) (h4 : 4 ≤ n)
    (hF : ∀ x : Int, 2 ≤ x → x ≤ n - 1 → modpow x (n - 1) n = .ok 1)
    (hR : ∀ a : Int, 2 ≤ a → a ≤ n - 2 → ∀ z,
      modpow a ((n - 1).tdiv (2 ^ (v2loop (n - 1)).1)) n = .ok z →
        z = 1 ∨ z = n - 1 ∨ sqLoop n z (v2loop (n - 1)).1 = .jumped)
    (hg : GoodRand rnd) :
    isprime n k rnd t = .ok true := by
  have hn0 : (if n < 0 then -n else n) = n := if_neg (by omega)
  obtain ⟨hx1, hx2⟩ := hg t 2 (n - 1) (by omega)
  rw [isprime]
  simp only [hn0]
  rw [if_neg (by omega : ¬ n < 2), if_neg (by omega : ¬ (n = 2 ∨ n = 3)),
    hF _ hx1 hx2]
  simp only [Except.bind]
  rw [if_neg (by norm_num : ¬ (1 : Int) ≠ 1)]
  have key : ∀ k' i, mrRounds n ((n - 1).tdiv (2 ^ (v2loop (n - 1)).1))
      (v2loop (n - 1)).1 rnd t k' i = .ok true := by
    intro k'
    induction k' with
    | zero => intro i; rfl
    | succ k' ih =>
        intro i
        obtain ⟨ha1, ha2⟩ := hg (t + 1 + i) 2 (n - 2) (by omega)
        have hr0 : 0 ≤ (n - 1).tdiv (2 ^ (v2loop (n - 1)).1) :=
          Int.tdiv_nonneg (by omega) (by positivity)
        have hmp := modpow_eq (rnd (t + 1 + i) 2 (n - 2))
          ((n - 1).tdiv (2 ^ (v2loop (n - 1)).1)) n (by omega) hr0 (by omega)
          (fun hc => by omega) (fun hc => by omega)
        rw [mrRounds, hmp]
        simp only [Except.bind]
        rcases hR _ ha1 ha2 _ hmp with h1 | h1 | h1
        · rw [if_pos (Or.inl h1)]
          exact ih (i + 1)
        · rw [if_pos (Or.inr h1)]
          exact ih (i + 1)
        · by_cases hz1 : (rnd (t + 1 + i) 2 (n - 2)) ^
              ((n - 1).tdiv (2 ^ (v2loop (n - 1)).1)).toNat % n = 1 ∨
              (rnd (t + 1 + i) 2 (n - 2)) ^
              ((n - 1).tdiv (2 ^ (v2loop (n - 1)).1)).toNat % n = n - 1
          · rw [if_pos hz1]
            exact ih (i + 1)
          · rw [if_neg hz1, h1]
            exact ih (i + 1)
  exact key k 0

/-- If every in-range Fermat witness fails, `isprime` answers `false`
whatever the random source does. -/
theorem isprime_false_of_fermat (n : Int) (k : Nat)
    (rnd : Nat → Int → Int → Int) (t : Nat) (h4 : 4 ≤ n)
    (hF : ∀ x : Int, 2 ≤ x → x ≤ n - 1 →
      ∃ w, modpow x (n - 1) n = .ok w ∧ w ≠ 1)
    (hg : GoodRand rnd) :
    isprime n k rnd t = .ok false := by
  have hn0 : (if n < 0 then -n else n) = n := if_neg (by omega)
  obtain ⟨hx1, hx2⟩ := hg t 2 (n - 1) (by omega)
  obtain ⟨w, hw, hw1⟩ := hF _ hx1 hx2
  rw [isprime]
  simp only [hn0]
  rw [if_neg (by omega : ¬ n < 2), if_neg (by omega : ¬ (n = 2 ∨ n = 3)), hw]
  simp only [Except.bind]
  rw [if_pos hw1]

/-- If at least one round runs and every in-range round witness is rejected,
`isprime` answers `false` whatever the random source does. -/
theorem isprime_false_of_rounds (n : Int) (k : Nat)
    (rnd : Nat → Int → Int → Int) (t : Nat) (h4 : 4 ≤ n) (hk : 1 ≤ k)
    (hR : ∀ a : Int, 2 ≤ a → a ≤ n - 2 → ∀ z,
      modpow a ((n - 1).tdiv (2 ^ (v2loop (n - 1)).1)) n = .ok z →
        z ≠ 1 ∧ z ≠ n - 1 ∧ sqLoop n z (v2loop (n - 1)).1 ≠ .jumped)
    (hg : GoodRand rnd) :
    isprime n k rnd t = .ok false := by
  have hn0 : (if n < 0 then -n else n) = n := if_neg (by omega)
  obtain ⟨hx1, hx2⟩ := hg t 2 (n - 1) (by omega)
  have hmpx := modpow_eq (rnd t 2 (n - 1)) (n - 1) n (by omega) (by omega)
    (by omega) (fun hc => by omega) (fun hc => by omega)
  rw [isprime]
  simp only [hn0]
  rw [if_neg (by omega : ¬ n < 2), if_neg (by omega : ¬ (n = 2 ∨ n = 3)), hmpx]
  simp only [Except.bind]
  by_cases hw : (rnd t 2 (n - 1)) ^ (n - 1).toNat % n ≠ 1
  · rw [if_pos hw]
  · rw [if_neg hw]
    obtain ⟨k', rfl⟩ : ∃ k', k = k' + 1 := ⟨k - 1, by omega⟩
    obtain ⟨ha1, ha2⟩ := hg (t + 1 + 0) 2 (n - 2) (by omega)
    have hr0 : 0 ≤ (n - 1).tdiv (2 ^ (v2loop (n - 1)).1) :=
      Int.tdiv_nonneg (by omega) (by positivity)
    have hmpa := modpow_eq (rnd (t + 1 + 0) 2 (n - 2))
      ((n - 1).tdiv (2 ^ (v2loop (n - 1)).1)) n (by omega) hr0 (by omega)
      (fun hc => by omega) (fun hc => by omega)
    obtain ⟨hz1, hz2, hz3⟩ := hR _ ha1 ha2 _ hmpa
    rw [mrRounds, hmpa]
    simp only [Except.bind]
    rw [if_neg (by tauto)]

/-- `qpp::modpow` on a `Nat`-valued exponent and modulus, expressed through
`Nat` arithmetic. -/
theorem modpow_natCheck (x : Int) (e n : Nat) (hx : 2 ≤ x) (hn : 4 ≤ n)
    (he : 1 ≤ e) :
    modpow x (e : Int) (n : Int) = .ok ((x.toNat ^ e % n : Nat) : Int) := by
  have hx0 : 0 ≤ x := by omega
  have hmp := modpow_eq x e n hx0 (by positivity) (by positivity)
    (fun hc => by omega) (fun hc => by omega)
  rw [hmp, Int.toNat_natCast]
  congr 1
  have hcast : ((x.toNat ^ e % n : Nat) : Int) = x ^ e % (n : Int) := by
    push_cast
    rw [Int.toNat_of_nonneg hx0]
  rw [hcast]

/-- Bridge: a kernel-checkable `powModAux` certificate covering every
in-range Fermat witness implies the hypothesis of
`isprime_true_of_checks`. -/
theorem fermatPass_of_natCheck (n e f : Nat) (h4 : 4 ≤ n) (he : 1 ≤ e)
    (hef : e < 2 ^ f)
    (hch : ∀ x ∈ Finset.Icc 2 (n - 1), powModAux f x e n = 1) :
    ∀ x : Int, 2 ≤ x → x ≤ (n : Int) - 1 →
      modpow x (e : Int) (n : Int) = .ok 1 := by
  intro x hx2 hxn
  have hmem : x.toNat ∈ Finset.Icc 2 (n - 1) := by
    rw [Finset.mem_Icc]
    omega
  have hc := hch x.toNat hmem
  rw [powModAux_eq f _ _ _ (by omega) hef] at hc
  rw [modpow_natCheck x e n hx2 h4 he, hc]
  norm_num

/-- Bridge: a `powModAux` certificate that every in-range Fermat witness is
rejected implies the hypothesis of `isprime_false_of_fermat`. -/
theorem fermatFail_of_natCheck (n e f : Nat) (h4 : 4 ≤ n) (he : 1 ≤ e)
    (hef : e < 2 ^ f)
    (hch : ∀ x ∈ Finset.Icc 2 (n - 1), powModAux f x e n ≠ 1) :
    ∀ x : Int, 2 ≤ x → x ≤ (n : Int) - 1 →
      ∃ w, modpow x (e : Int) (n : Int) = .ok w ∧ w ≠ 1 := by
  intro x hx2 hxn
  have hmem : x.toNat ∈ Finset.Icc 2 (n - 1) := by
    rw [Finset.mem_Icc]
    omega
  have hc := hch x.toNat hmem
  rw [powModAux_eq f _ _ _ (by omega) hef] at hc
  refine ⟨((x.toNat ^ e % n : Nat) : Int),
    modpow_natCheck x e n hx2 h4 he, ?_⟩
  intro hone
  apply hc
  exact_mod_cast hone

/-- Bridge: a `powModAux`/`sqLoop` certificate covering every in-range round
witness implies the round hypothesis of `isprime_true_of_checks`. -/
theorem roundPass_of_natCheck (n r u f : Nat) (h4 : 4 ≤ n) (hr : 1 ≤ r)
    (hrf : r < 2 ^ f)
    (hch : ∀ a ∈ Finset.Icc 2 (n - 2),
      powModAux f a r n = 1 ∨ powModAux f a r n = n - 1 ∨
        sqLoop (n : Int) ((powModAux f a r n : Nat) : Int) u = .jumped) :
    ∀ a : Int, 2 ≤ a → a ≤ (n : Int) - 2 → ∀ z,
      modpow a (r : Int) (n : Int) = .ok z →
        z = 1 ∨ z = (n : Int) - 1 ∨ sqLoop (n : Int) z u = .jumped := by
  intro a ha2 han z hz
  have hmem : a.toNat ∈ Finset.Icc 2 (n - 2) := by
    rw [Finset.mem_Icc]
    omega
  have hc := hch a.toNat hmem
  rw [powModAux_eq f _ _ _ (by omega) hrf] at hc
  rw [modpow_natCheck a r n ha2 h4 hr] at hz
  have hzv : z = ((a.toNat ^ r % n : Nat) : Int) := by
    injection hz.symm
  subst hzv
  rcases hc with h | h | h
  · left
    rw [h]
    norm_num
  · right; left
    rw [h]
    omega
  · right; right
    exact h

/-- Bridge: a certificate that every in-range round witness is rejected
implies the round hypothesis of `isprime_false_of_rounds`. -/
theorem roundFail_of_natCheck (n r u f : Nat) (h4 : 4 ≤ n) (hr : 1 ≤ r)
    (hrf : r < 2 ^ f)
    (hch : ∀ a ∈ Finset.Icc 2 (n - 2),
      powModAux f a r n ≠ 1 ∧ powModAux f a r n ≠ n - 1 ∧
        sqLoop (n : Int) ((powModAux f a r n : Nat) : Int) u ≠ .jumped) :
    ∀ a : Int, 2 ≤ a → a ≤ (n : Int) - 2 → ∀ z,
      modpow a (r : Int) (n : Int) = .ok z →
        z ≠ 1 ∧ z ≠ (n : Int) - 1 ∧ sqLoop (n : Int) z u ≠ .jumped := by
  intro a ha2 han z hz
  have hmem : a.toNat ∈ Finset.Icc 2 (n - 2) := by
    rw [Finset.mem_Icc]
    omega
  obtain ⟨h1, h2, h3⟩ := hch a.toNat hmem
  rw [powModAux_eq f _ _ _ (by omega) hrf] at h1 h2 h3
  rw [modpow_natCheck a r n ha2 h4 hr] at hz
  have hzv : z = ((a.toNat ^ r % n : Nat) : Int) := by
    injection hz.symm
  subst hzv
  refine ⟨?_, ?_, h3⟩
  · intro hc
    apply h1
    exact_mod_cast hc
  · intro hc
    apply h2
    have : ((a.toNat ^ r % n : Nat) : Int) = ((n - 1 : Nat) : Int) := by
      rw [hc]
      omega
    exact_mod_cast this

/-- Full certificate scheme for `isprime` answering `true` on a given
number: a 2-adic decomposition of `p - 1` plus finite Fermat and round
certificates. -/
theorem isprime_true_cert (p r u fF fR : Nat) (hp : 4 ≤ p) (hr1 : 1 ≤ r)
    (hodd : r % 2 = 1)
    (hdec : ((p : Nat) : Int) - 1 = 2 ^ u * ((r : Nat) : Int))
    (hFf : p - 1 < 2 ^ fF) (hRf : r < 2 ^ fR)
    (hF : ∀ x ∈ Finset.Icc 2 (p - 1), powModAux fF x (p - 1) p = 1)
    (hR : ∀ a ∈ Finset.Icc 2 (p - 2),
      powModAux fR a r p = 1 ∨ powModAux fR a r p = p - 1 ∨
        sqLoop (p : Int) ((powModAux fR a r p : Nat) : Int) u = .jumped)
    (rnd : Nat → Int → Int → Int) (t : Nat) (hg : GoodRand rnd) :
    isprime (p : Int) 80 rnd t = .ok true := by
  have hrpos : (0 : Int) < (r : Int) := by exact_mod_cast hr1
  have hroddI : Int.tmod ((r : Nat) : Int) 2 ≠ 0 := by
    rw [Int.tmod_eq_emod (by positivity) (by norm_num)]
    omega
  have hv : v2loop ((p : Int) - 1) = (u, ((r : Nat) : Int)) :=
    v2loop_eval _ u _ hrpos hroddI hdec
  have hu1 : (v2loop ((p : Int) - 1)).1 = u := by rw [hv]
  have hrr : ((p : Int) - 1).tdiv (2 ^ (v2loop ((p : Int) - 1)).1) =
      ((r : Nat) : Int) := by
    rw [hu1, hdec, Int.mul_tdiv_cancel_left _ (by positivity : (0:Int) < 2 ^ u).ne']
  refine isprime_true_of_checks _ 80 rnd t (by exact_mod_cast hp) ?_ ?_ hg
  · have hFi := fermatPass_of_natCheck p (p - 1) fF hp (by omega) hFf hF
    have hcast : ((p - 1 : Nat) : Int) = (p : Int) - 1 := by omega
    rw [hcast] at hFi
    exact hFi
  · rw [hrr, hu1]
    exact roundPass_of_natCheck p r u fR hp hr1 hRf hR

/-- Certificate scheme for `isprime` answering `false` through the Fermat
filter: every in-range base fails the Fermat test. -/
theorem isprime_comp_fermat_cert (m fF : Nat) (hm : 4 ≤ m)
    (hFf : m - 1 < 2 ^ fF)
    (hF : ∀ x ∈ Finset.Icc 2 (m - 1), powModAux fF x (m - 1) m ≠ 1)
    (rnd : Nat → Int → Int → Int) (t : Nat) (hg : GoodRand rnd) :
    isprime (m : Int) 80 rnd t = .ok false := by
  refine isprime_false_of_fermat _ 80 rnd t (by exact_mod_cast hm) ?_ hg
  have hFi := fermatFail_of_natCheck m (m - 1) fF hm (by omega) hFf hF
  have hcast : ((m - 1 : Nat) : Int) = (m : Int) - 1 := by omega
  rw [hcast] at hFi
  exact hFi

/-- Certificate scheme for `isprime` answering `false` through the
Miller-Rabin rounds: every in-range round witness is rejected. -/
theorem isprime_comp_rounds_cert (m r u fR : Nat) (hm : 4 ≤ m) (hr1 : 1 ≤ r)
    (hodd : r % 2 = 1)
    (hdec : ((m : Nat) : Int) - 1 = 2 ^ u * ((r : Nat) : Int))
    (hRf : r < 2 ^ fR)
    (hR : ∀ a ∈ Finset.Icc 2 (m - 2),
      powModAux fR a r m ≠ 1 ∧ powModAux fR a r m ≠ m - 1 ∧
        sqLoop (m : Int) ((powModAux fR a r m : Nat) : Int) u ≠ .jumped)
    (rnd : Nat → Int → Int → Int) (t : Nat) (hg : GoodRand rnd) :
    isprime (m : Int) 80 rnd t = .ok false := by
  have hrpos : (0 : Int) < (r : Int) := by exact_mod_cast hr1
  have hroddI : Int.tmod ((r : Nat) : Int) 2 ≠ 0 := by
    rw [Int.tmod_eq_emod (by positivity) (by norm_num)]
    omega
  have hv : v2loop ((m : Int) - 1) = (u, ((r : Nat) : Int)) :=
    v2loop_eval _ u _ hrpos hroddI hdec
  have hu1 : (v2loop ((m : Int) - 1)).1 = u := by rw [hv]
  have hrr : ((m : Int) - 1).tdiv (2 ^ (v2loop ((m : Int) - 1)).1) =
      ((r : Nat) : Int) := by
    rw [hu1, hdec, Int.mul_tdiv_cancel_left _ (by positivity : (0:Int) < 2 ^ u).ne']
  refine isprime_false_of_rounds _ 80 rnd t (by exact_mod_cast hm)
    (by norm_num) ?_ hg
  rw [hrr, hu1]
  exact roundFail_of_natCheck m r u fR hm hr1 hRf hR

theorem isprime_at_2 (rnd : Nat → Int → Int → Int) (t : Nat) :
    isprime 2 80 rnd t = .ok true := rfl

theorem isprime_at_3 (rnd : Nat → Int → Int → Int) (t : Nat) :
    isprime 3 80 rnd t = .ok true := rfl

theorem isprime_at_5 (rnd : Nat → Int → Int → Int) (t : Nat)
    (hg : GoodRand rnd) : isprime 5 80 rnd t = .ok true := by
  have h := isprime_true_cert 5 1 2 3 1 (by norm_num) (by norm_num)
    (by norm_num) (by norm_num) (by norm_num) (by norm_num)
    (by decide) (by decide) rnd t hg
  exact_mod_cast h

theorem isprime_at_7 (rnd : Nat → Int → Int → Int) (t : Nat)
    (hg : GoodRand rnd) : isprime 7 80 rnd t = .ok true := by
  have h := isprime_true_cert 7 3 1 3 2 (by norm_num) (by norm_num)
    (by norm_num) (by norm_num) (by norm_num) (by norm_num)
    (by decide) (by decide) rnd t hg
  exact_mod_cast h

set_option maxRecDepth 100000 in
theorem isprime_at_97 (rnd : Nat → Int → Int → Int) (t : Nat)
    (hg : GoodRand rnd) : isprime 97 80 rnd t = .ok true := by
  have h := isprime_true_cert 97 3 5 7 2 (by norm_num) (by norm_num)
    (by norm_num) (by norm_num) (by norm_num) (by norm_num)
    (by decide) (by decide) rnd t hg
  exact_mod_cast h

set_option exponentiation.threshold 10000 in
set_option maxRecDepth 100000 in
set_option maxHeartbeats 12000000 in
theorem isprime_at_7919 (rnd : Nat → Int → Int → Int) (t : Nat)
    (hg : GoodRand rnd) : isprime 7919 80 rnd t = .ok true := by
  have hF0 := icc_of_rangeCheck
    (fun x => x ^ (7919 - 1) % 7919 = 1) 14 2 (7919 - 1) (by decide)
  have hF : ∀ x ∈ Finset.Icc 2 (7919 - 1),
      powModAux 13 x (7919 - 1) 7919 = 1 := by
    intro x hx
    rw [powModAux_eq 13 x (7919 - 1) 7919 (by norm_num) (by norm_num)]
    exact hF0 x hx
  have hR0 := icc_of_rangeCheck
    (fun a => a ^ 3959 % 7919 = 1 ∨ a ^ 3959 % 7919 = 7919 - 1 ∨
      sqLoop ((7919 : Nat) : Int) ((a ^ 3959 % 7919 : Nat) : Int) 1 =
        .jumped) 14 2 (7919 - 2) (by decide)
  have hR : ∀ a ∈ Finset.Icc 2 (7919 - 2),
      powModAux 12 a 3959 7919 = 1 ∨ powModAux 12 a 3959 7919 = 7919 - 1 ∨
        sqLoop ((7919 : Nat) : Int) ((powModAux 12 a 3959 7919 : Nat) : Int) 1 =
          .jumped := by
    intro a ha
    rw [powModAux_eq 12 a 3959 7919 (by norm_num) (by norm_num)]
    exact hR0 a ha
  have h := isprime_true_cert 7919 3959 1 13 12 (by norm_num) (by norm_num)
    (by norm_num) (by norm_num) (by norm_num) (by norm_num) hF hR rnd t hg
  exact_mod_cast h

theorem isprime_at_4 (rnd : Nat → Int → Int → Int) (t : Nat)
    (hg : GoodRand rnd) : isprime 4 80 rnd t = .ok false := by
  have h := isprime_comp_fermat_cert 4 2 (by norm_num) (by norm_num)
    (by decide) rnd t hg
  exact_mod_cast h

theorem isprime_at_9 (rnd : Nat → Int → Int → Int) (t : Nat)
    (hg : GoodRand rnd) : isprime 9 80 rnd t = .ok false := by
  have h := isprime_comp_rounds_cert 9 1 3 1 (by norm_num) (by norm_num)
    (by norm_num) (by norm_num) (by norm_num) (by decide) rnd t hg
  exact_mod_cast h

set_option maxRecDepth 100000 in
theorem isprime_at_100 (rnd : Nat → Int → Int → Int) (t : Nat)
    (hg : GoodRand rnd) : isprime 100 80 rnd t = .ok false := by
  have h := isprime_comp_fermat_cert 100 7 (by norm_num) (by norm_num)
    (by decide) rnd t hg
  exact_mod_cast h

set_option exponentiation.threshold 10000 in
set_option maxRecDepth 100000 in
set_option maxHeartbeats 12000000 in
theorem isprime_at_7920 (rnd : Nat → Int → Int → Int) (t : Nat)
    (hg : GoodRand rnd) : isprime 7920 80 rnd t = .ok false := by
  have hF0 := icc_of_rangeCheck
    (fun x => x ^ (7920 - 1) % 7920 ≠ 1) 14 2 (7920 - 1) (by decide)
  have hF : ∀ x ∈ Finset.Icc 2 (7920 - 1),
      powModAux 13 x (7920 - 1) 7920 ≠ 1 := by
    intro x hx
    rw [powModAux_eq 13 x (7920 - 1) 7920 (by norm_num) (by norm_num)]
    exact hF0 x hx
  have h := isprime_comp_fermat_cert 7920 13 (by norm_num) (by norm_num)
    hF rnd t hg
  exact_mod_cast h

/-- **C5.** For every random source meeting its range contract, `isprime` at
the default `k = 80` answers `true` on 2, 3, 5, 7, 97 and 7919 and `false`
on 4, 9, 100 and 7920, whatever values the source produces. -/
theorem C5_isprime_small (rnd : Nat → Int → Int → Int) (t : Nat)
    (hg : GoodRand rnd) :
    (isprime 2 80 rnd t = .ok true ∧ isprime 3 80 rnd t = .ok true ∧
      isprime 5 80 rnd t = .ok true ∧ isprime 7 80 rnd t = .ok true ∧
      isprime 97 80 rnd t = .ok true ∧ isprime 7919 80 rnd t = .ok true) ∧
    (isprime 4 80 rnd t = .ok false ∧ isprime 9 80 rnd t = .ok false ∧
      isprime 100 80 rnd t = .ok false ∧
      isprime 7920 80 rnd t = .ok false) :=
  ⟨⟨isprime_at_2 rnd t, isprime_at_3 rnd t, isprime_at_5 rnd t hg,
    isprime_at_7 rnd t hg, isprime_at_97 rnd t hg, isprime_at_7919 rnd t hg⟩,
   ⟨isprime_at_4 rnd t hg, isprime_at_9 rnd t hg, isprime_at_100 rnd t hg,
    isprime_at_7920 rnd t hg⟩⟩

/-- Witness for C5 at the concrete source that always returns the lower end
of the requested range. -/
theorem C5_isprime_small_witness :
    GoodRand (fun _ lo _ => lo) ∧
      ((isprime 2 80 (fun _ lo _ => lo) 0 = .ok true ∧
        isprime 3 80 (fun _ lo _ => lo) 0 = .ok true ∧
        isprime 5 80 (fun _ lo _ => lo) 0 = .ok true ∧
        isprime 7 80 (fun _ lo _ => lo) 0 = .ok true ∧
        isprime 97 80 (fun _ lo _ => lo) 0 = .ok true ∧
        isprime 7919 80 (fun _ lo _ => lo) 0 = .ok true) ∧
      (isprime 4 80 (fun _ lo _ => lo) 0 = .ok false ∧
        isprime 9 80 (fun _ lo _ => lo) 0 = .ok false ∧
        isprime 100 80 (fun _ lo _ => lo) 0 = .ok false ∧
        isprime 7920 80 (fun _ lo _ => lo) 0 = .ok false)) :=
  ⟨fun _ _ _ h => ⟨le_rfl, h⟩,
    C5_isprime_small (fun _ lo _ => lo) 0 (fun _ _ _ h => ⟨le_rfl, h⟩)⟩

/-! ### C6: the inner squaring loop of `isprime` versus the spec's bound -/

/-- A number all of whose prime factors are `≡ 1 (mod M)` is itself
`≡ 1 (mod M)`. -/
theorem cong_one_of_prime_factors (M : Nat) (hM : 2 ≤ M) :
    ∀ N : Nat, 0 < N → (∀ p : Nat, p.Prime → p ∣ N → p % M = 1) →
      N % M = 1 := by
  intro N
  induction N using Nat.strong_induction_on with
  | _ N ih =>
      intro hN hp
      by_cases h1 : N = 1
      · rw [h1]
        exact Nat.mod_eq_of_lt (by omega)
      · have hpf := Nat.minFac_prime h1
        obtain ⟨q, hq⟩ := Nat.minFac_dvd N
        have hq0 : 0 < q := by
          rcases Nat.eq_zero_or_pos q with h | h
          · rw [h, mul_zero] at hq
            omega
          · exact h
        have h2f : 2 ≤ N.minFac := hpf.two_le
        have hqlt : q < N := by
          rw [hq]
          nlinarith
        have hqmod := ih q hqlt hq0
          (fun p hp' hdq => hp p hp' (by rw [hq]; exact hdq.mul_left N.minFac))
        have hpmod := hp N.minFac hpf (Nat.minFac_dvd N)
        rw [hq, Nat.mul_mod, hpmod, hqmod]
        simpa using Nat.mod_eq_of_lt (show 1 < M by omega)

/-- For odd `N ≥ 3` no residue satisfies `a ^ (N - 1) = -1` in `ZMod N`:
otherwise every prime factor of `N` would be `≡ 1 (mod 2 ^ (u + 1))` where
`2 ^ u` exactly divides `N - 1`, forcing `2 ^ (u + 1) ∣ N - 1`. -/
theorem zmod_pow_ne_neg_one (N u r : Nat) (hN3 : 3 ≤ N)
    (hNodd : N % 2 = 1) (hdec : N - 1 = 2 ^ u * r) (hrodd : r % 2 = 1)
    (a : ZMod N) : a ^ (N - 1) ≠ -1 := by
  intro hcon
  have hM2 : 2 ≤ 2 ^ (u + 1) := by
    calc (2 : Nat) = 2 ^ 1 := by norm_num
    _ ≤ 2 ^ (u + 1) := Nat.pow_le_pow_right (by norm_num) (by omega)
  have hprime : ∀ p : Nat, p.Prime → p ∣ N → p % 2 ^ (u + 1) = 1 := by
    intro p hp hpN
    haveI : Fact p.Prime := ⟨hp⟩
    have hpne2 : p ≠ 2 := by
      rintro rfl
      obtain ⟨c, hc⟩ := hpN
      omega
    have hp3 : 3 ≤ p := by
      have := hp.two_le
      omega
    haveI : Fact (2 < p) := ⟨by omega⟩
    have hc : (ZMod.castHom hpN (ZMod p) a) ^ (N - 1) = -1 := by
      have h0 := congrArg (ZMod.castHom hpN (ZMod p)) hcon
      simpa [map_pow, map_neg, map_one] using h0
    have hb : ((ZMod.castHom hpN (ZMod p) a) ^ r) ^ (2 ^ u) = -1 := by
      rw [← pow_mul, mul_comm r (2 ^ u), ← hdec]
      exact hc
    set c := (ZMod.castHom hpN (ZMod p) a) ^ r with hcdef
    have hc0 : c ≠ 0 := by
      intro h0
      rw [h0, zero_pow (by positivity : (2 : Nat) ^ u ≠ 0)] at hb
      have h1 : (1 : ZMod p) = 0 := by linear_combination hb
      exact one_ne_zero h1
    have hord2 : orderOf c ∣ 2 ^ (u + 1) := by
      apply orderOf_dvd_of_pow_eq_one
      rw [pow_succ, pow_mul, hb]
      norm_num
    obtain ⟨w, hwle, hordw⟩ := (Nat.dvd_prime_pow Nat.prime_two).mp hord2
    have hwu : w = u + 1 := by
      by_contra hne
      have hwle' : w ≤ u := by omega
      have hone : c ^ (2 ^ u) = 1 := by
        have h1 : c ^ (2 ^ w * 2 ^ (u - w)) = 1 := by
          rw [pow_mul, ← hordw, pow_orderOf_eq_one, one_pow]
        rwa [← pow_add, ← Nat.add_sub_assoc hwle', Nat.add_sub_cancel_left]
          at h1
      rw [hone] at hb
      exact ZMod.neg_one_ne_one hb.symm
    have hdvdp : orderOf c ∣ p - 1 :=
      orderOf_dvd_of_pow_eq_one (ZMod.pow_card_sub_one_eq_one hc0)
    rw [hordw, hwu] at hdvdp
    obtain ⟨d, hd⟩ := hdvdp
    have hpe : p = 2 ^ (u + 1) * d + 1 := by
      rw [← hd]
      omega
    rw [hpe, Nat.mul_add_mod]
    exact Nat.mod_eq_of_lt (by omega)
  have hNmod : N % 2 ^ (u + 1) = 1 :=
    cong_one_of_prime_factors (2 ^ (u + 1)) hM2 N (by omega) hprime
  have hdvdN1 : 2 ^ (u + 1) ∣ N - 1 := by
    refine ⟨N / 2 ^ (u + 1), ?_⟩
    have h := Nat.div_add_mod N (2 ^ (u + 1))
    rw [hNmod] at h
    exact Nat.sub_eq_of_eq_add h.symm
  obtain ⟨d2, hd2⟩ := hdvdN1
  rw [hdec] at hd2
  have hr2 : r = 2 * d2 := by
    have h2 : (2 : Nat) ^ u * r = 2 ^ u * (2 * d2) := by
      rw [hd2, pow_succ]
      ring
    exact Nat.eq_of_mul_eq_mul_left (by positivity) h2
  omega

/-- One unfolding step of the squaring loop. -/
theorem sqLoop_step (n w : Int) (b : Nat) : sqLoop n w (b + 1) =
    (if Int.tmod (Int.tmod w n * Int.tmod w n) n = 1 then .composite
     else if Int.tmod (Int.tmod w n * Int.tmod w n) n = n - 1 then .jumped
     else sqLoop n (Int.tmod (Int.tmod w n * Int.tmod w n) n) b) := rfl

/-- The squaring loop with one more unit of fuel: it first runs the shorter
loop and, if that was merely exhausted, performs one extra squaring step. -/
theorem sqLoop_succ (n : Int) (f : Nat) : ∀ z : Int,
    sqLoop n z (f + 1) =
      match sqLoop n z f with
      | .composite => .composite
      | .jumped => .jumped
      | .exhausted w =>
          if Int.tmod (Int.tmod w n * Int.tmod w n) n = 1 then .composite
          else if Int.tmod (Int.tmod w n * Int.tmod w n) n = n - 1 then
            .jumped
          else .exhausted (Int.tmod (Int.tmod w n * Int.tmod w n) n) := by
  induction f with
  | zero => intro z; rfl
  | succ f ih =>
      intro z
      rw [sqLoop_step n z (f + 1), sqLoop_step n z f]
      by_cases h1 : Int.tmod (Int.tmod z n * Int.tmod z n) n = 1
      · rw [if_pos h1, if_pos h1]
      · rw [if_neg h1, if_neg h1]
        by_cases h2 : Int.tmod (Int.tmod z n * Int.tmod z n) n = n - 1
        · rw [if_pos h2, if_pos h2]
        · rw [if_neg h2, if_neg h2]
          exact ih _

/-- The exhausted value of the squaring loop is the `2 ^ f`-th power of the
start value, reduced modulo `n`. -/
theorem sqLoop_exhausted_spec (n : Int) (hn : 0 < n) :
    ∀ (f : Nat) (z w : Int), 0 ≤ z → z < n → sqLoop n z f = .exhausted w →
      w ≡ z ^ (2 ^ f) [ZMOD n] ∧ 0 ≤ w ∧ w < n := by
  intro f
  induction f with
  | zero =>
      intro z w hz hzn h
      have hzw : SqRes.exhausted z = SqRes.exhausted w := h
      injection hzw with hzw'
      subst hzw'
      refine ⟨?_, hz, hzn⟩
      simpa using Int.ModEq.refl z
  | succ f ih =>
      intro z w hz hzn h
      rw [sqLoop_step] at h
      have htz : Int.tmod z n = z := by
        rw [Int.tmod_eq_emod hz hn.le]
        exact Int.emod_eq_of_lt hz hzn
      rw [htz] at h
      have hz'e : Int.tmod (z * z) n = (z * z) % n :=
        Int.tmod_eq_emod (mul_nonneg hz hz) hn.le
      have hz'0 : 0 ≤ Int.tmod (z * z) n := by
        rw [hz'e]
        exact Int.emod_nonneg _ hn.ne'
      have hz'n : Int.tmod (z * z) n < n := by
        rw [hz'e]
        exact Int.emod_lt_of_pos _ hn
      by_cases h1 : Int.tmod (z * z) n = 1
      · rw [if_pos h1] at h
        exact SqRes.noConfusion h
      · rw [if_neg h1] at h
        by_cases h2 : Int.tmod (z * z) n = n - 1
        · rw [if_pos h2] at h
          exact SqRes.noConfusion h
        · rw [if_neg h2] at h
          obtain ⟨hcong, hw0, hwn⟩ := ih _ w hz'0 hz'n h
          refine ⟨?_, hw0, hwn⟩
          have hzz : Int.tmod (z * z) n ≡ z * z [ZMOD n] := by
            rw [hz'e]
            exact Int.mod_modEq (z * z) n
          calc w ≡ (Int.tmod (z * z) n) ^ (2 ^ f) [ZMOD n] := hcong
          _ ≡ (z * z) ^ (2 ^ f) [ZMOD n] := hzz.pow _
          _ = z ^ (2 ^ (f + 1)) := by
              rw [← pow_two, ← pow_mul]
              congr 1
              rw [pow_succ]
              ring

/-- Inversion of a successful `modpow` call with positive exponent. -/
theorem modpow_ok_inv (a e p z : Int) (he : 0 < e)
    (h : modpow a e p = .ok z) : 0 ≤ a ∧ 0 < p ∧ z = a ^ e.toNat % p := by
  rw [modpow] at h
  by_cases h1 : a < 0 ∨ e < 0 ∨ p < 1
  · rw [if_pos h1] at h
    exact Except.noConfusion h
  · rw [if_neg h1] at h
    push_neg at h1
    obtain ⟨ha, hee, hp⟩ := h1
    rw [if_neg (by rintro ⟨h0, h0'⟩; omega)] at h
    by_cases h3 : a = 0 ∧ 0 < e
    · rw [if_pos h3] at h
      injection h with hz
      refine ⟨ha, by omega, ?_⟩
      rw [← hz, h3.1, zero_pow (by omega : e.toNat ≠ 0)]
      simp
    · rw [if_neg h3] at h
      rw [if_neg (by rintro ⟨h0, h0'⟩; omega)] at h
      injection h with hz
      have ha1 : 0 < a := by
        by_cases haz : a = 0
        · exact absurd ⟨haz, he⟩ h3
        · omega
      refine ⟨ha, by omega, ?_⟩
      rw [← hz, modpowLoop_eq p 1 a e (by omega) ha (by norm_num) he, one_mul]

/-- The extra `u`-th squaring pass cannot flip a rejected round witness into
a passing one: with `n - 1 = 2 ^ u * r` the extra squaring would produce
`a ^ (n - 1) ≡ -1 (mod n)`, which is impossible for odd `n`. -/
theorem sqLoop_jumped_iff (n z : Int) (u : Nat) (r a : Int) (hn5 : 5 ≤ n)
    (hu1 : 1 ≤ u) (hdec : n - 1 = 2 ^ u * r) (hrpos : 0 < r)
    (hrodd : Int.tmod r 2 ≠ 0) (hz : z = a ^ r.toNat % n) :
    sqLoop n z u = .jumped ↔ sqLoop n z (u - 1) = .jumped := by
  obtain ⟨u', rfl⟩ : ∃ u', u = u' + 1 := ⟨u - 1, by omega⟩
  simp only [Nat.add_sub_cancel]
  constructor
  · intro h
    rw [sqLoop_succ] at h
    rcases hS : sqLoop n z u' with _ | _ | w
    · rw [hS] at h
      exact SqRes.noConfusion h
    · rfl
    · rw [hS] at h
      exfalso
      have hz0 : 0 ≤ z := by
        rw [hz]
        exact Int.emod_nonneg _ (by omega)
      have hzn : z < n := by
        rw [hz]
        exact Int.emod_lt_of_pos _ (by omega)
      obtain ⟨hcong, hw0, hwn⟩ :=
        sqLoop_exhausted_spec n (by omega) u' z w hz0 hzn hS
      have htw : Int.tmod w n = w := by
        rw [Int.tmod_eq_emod hw0 (by omega : (0:Int) ≤ n)]
        exact Int.emod_eq_of_lt hw0 hwn
      have h' : (if Int.tmod (Int.tmod w n * Int.tmod w n) n = 1 then
            SqRes.composite
          else if Int.tmod (Int.tmod w n * Int.tmod w n) n = n - 1 then
            SqRes.jumped
          else SqRes.exhausted (Int.tmod (Int.tmod w n * Int.tmod w n) n)) =
          SqRes.jumped := h
      rw [htw] at h'
      by_cases h1 : Int.tmod (w * w) n = 1
      · rw [if_pos h1] at h'
        exact SqRes.noConfusion h'
      · rw [if_neg h1] at h'
        by_cases h2 : Int.tmod (w * w) n = n - 1
        · rw [Int.tmod_eq_emod (mul_nonneg hw0 hw0) (by omega)] at h2
          have hexpN : r.toNat * 2 ^ (u' + 1) = (n - 1).toNat := by
            have hcast : ((r.toNat * 2 ^ (u' + 1) : Nat) : Int) =
                (((n - 1).toNat : Nat) : Int) := by
              push_cast
              rw [Int.toNat_of_nonneg hrpos.le,
                Int.toNat_of_nonneg (by omega : (0:Int) ≤ n - 1), hdec]
              ring
            exact_mod_cast hcast
          have hz' : z ≡ a ^ r.toNat [ZMOD n] := by
            rw [hz]
            exact Int.mod_modEq _ _
          have hw : w ≡ (a ^ r.toNat) ^ (2 ^ u') [ZMOD n] :=
            hcong.trans (hz'.pow _)
          have hww : w * w ≡ a ^ ((n - 1).toNat) [ZMOD n] := by
            calc w * w ≡ ((a ^ r.toNat) ^ (2 ^ u')) *
                ((a ^ r.toNat) ^ (2 ^ u')) [ZMOD n] := hw.mul hw
            _ = a ^ (r.toNat * 2 ^ (u' + 1)) := by
                rw [← pow_add, ← pow_mul]
                congr 1
                rw [pow_succ]
                ring
            _ = a ^ ((n - 1).toNat) := by rw [hexpN]
          have hcontra : a ^ ((n - 1).toNat) ≡ -1 [ZMOD n] := by
            have h2' : w * w ≡ n - 1 [ZMOD n] := by
              rw [← h2]
              exact (Int.mod_modEq _ _).symm
            have hneg : n - 1 ≡ -1 [ZMOD n] :=
              Int.ModEq.symm (Int.modEq_iff_dvd.mpr ⟨1, by ring⟩)
            exact (hww.symm.trans h2').trans hneg
          have hnN : n = (n.toNat : Int) := by omega
          have hNodd : n.toNat % 2 = 1 := by
            have hodd2 : (2 : Int) ∣ n - 1 :=
              ⟨2 ^ u' * r, by rw [hdec, pow_succ]; ring⟩
            obtain ⟨c, hc⟩ := hodd2
            omega
          have hroddN : r.toNat % 2 = 1 := by
            rw [Int.tmod_eq_emod hrpos.le (by norm_num)] at hrodd
            omega
          have hdecN : n.toNat - 1 = 2 ^ (u' + 1) * r.toNat := by
            rw [mul_comm, hexpN]
            omega
          have hzm : ((a ^ ((n - 1).toNat) : Int) : ZMod n.toNat) =
              ((-1 : Int) : ZMod n.toNat) := by
            rw [ZMod.intCast_eq_intCast_iff]
            rwa [← hnN]
          have hzm2 : ((a : Int) : ZMod n.toNat) ^ (n.toNat - 1) = -1 := by
            have he : (n - 1).toNat = n.toNat - 1 := by omega
            rw [← he]
            push_cast at hzm
            exact hzm
          exact zmod_pow_ne_neg_one n.toNat (u' + 1) r.toNat (by omega)
            hNodd hdecN hroddN _ hzm2
        · rw [if_neg h2] at h'
          exact SqRes.noConfusion h'
  · intro h
    rw [sqLoop_succ, h]

/-- The witness loop returns the same verdict whether the squaring loop is
given `u` or `u - 1` units of fuel, when `n - 1 = 2 ^ u * r` with `r` odd. -/
theorem mrRounds_fuel (n r : Int) (u : Nat) (rnd : Nat → Int → Int → Int)
    (t : Nat) (hn5 : 5 ≤ n) (hu1 : 1 ≤ u) (hdec : n - 1 = 2 ^ u * r)
    (hrpos : 0 < r) (hrodd : Int.tmod r 2 ≠ 0) :
    ∀ k i, mrRounds n r u rnd t k i = mrRounds n r (u - 1) rnd t k i := by
  intro k
  induction k with
  | zero => intro i; rfl
  | succ k ih =>
      intro i
      rw [mrRounds, mrRounds]
      cases hmp : modpow (rnd (t + 1 + i) 2 (n - 2)) r n with
      | error e => rfl
      | ok z =>
          simp only [Except.bind]
          by_cases hz1 : z = 1 ∨ z = n - 1
          · rw [if_pos hz1, if_pos hz1]
            exact ih (i + 1)
          · rw [if_neg hz1, if_neg hz1]
            obtain ⟨ha0, hp0, hzv⟩ := modpow_ok_inv _ r n z hrpos hmp
            have hiff := sqLoop_jumped_iff n z u r
              (rnd (t + 1 + i) 2 (n - 2)) hn5 hu1 hdec hrpos hrodd hzv
            by_cases hj : sqLoop n z u = .jumped
            · have hj' : sqLoop n z (u - 1) = .jumped := hiff.mp hj
              rw [hj, hj']
              exact ih (i + 1)
            · have hj' : sqLoop n z (u - 1) ≠ .jumped :=
                fun hc => hj (hiff.mpr hc)
              have hL : (match sqLoop n z u with
                  | SqRes.jumped => mrRounds n r u rnd t k (i + 1)
                  | _ => (.ok false : Except ExcType Bool)) = .ok false := by
                rcases hU : sqLoop n z u with _ | _ | w
                · rfl
                · exact absurd hU hj
                · rfl
              have hr' : (match sqLoop n z (u - 1) with
                  | SqRes.jumped => mrRounds n r (u - 1) rnd t k (i + 1)
                  | _ => (.ok false : Except ExcType Bool)) = .ok false := by
                rcases hU : sqLoop n z (u - 1) with _ | _ | w
                · rfl
                · exact absurd hU hj'
                · rfl
              rw [hL, hr']

/-- Modelled from the spec: the reference Miller-Rabin procedure of §4.3,
whose inner squaring loop runs at most `u - 1` times (the source's loop
bound is `u`); every other step is as in `isprime`. -/
def isprimeRef (n0 : Int) (k : Nat) (rnd : Nat → Int → Int → Int)
    (t : Nat) : Except ExcType Bool :=
  let n := if n0 < 0 then -n0 else n0
  if n < 2 then .error .OUT_OF_RANGE
  else if n = 2 ∨ n = 3 then .ok true
  else
    (modpow (rnd t 2 (n - 1)) (n - 1) n).bind fun fx =>
      if fx ≠ 1 then .ok false
      else
        mrRounds n ((n - 1).tdiv (2 ^ (v2loop (n - 1)).1))
          ((v2loop (n - 1)).1 - 1) rnd t k 0

/-- **C6.** Given identical witness values from the random source,
`isprime n k` for `n ≥ 2` returns the same verdict as the spec's reference
Miller-Rabin procedure `isprimeRef`, whose squaring loop runs at most
`u - 1` times. -/
theorem C6_squaring_loop_equiv (n : Int) (k : Nat)
    (rnd : Nat → Int → Int → Int) (t : Nat) (h2 : 2 ≤ n) :
    isprime n k rnd t = isprimeRef n k rnd t := by
  have hn0 : (if n < 0 then -n else n) = n := if_neg (by omega)
  rw [isprime, isprimeRef]
  simp only [hn0]
  rw [if_neg (by omega : ¬ n < 2), if_neg (by omega : ¬ n < 2)]
  by_cases h23 : n = 2 ∨ n = 3
  · rw [if_pos h23, if_pos h23]
  · rw [if_neg h23, if_neg h23]
    have hn4 : 4 ≤ n := by omega
    cases hmp : modpow (rnd t 2 (n - 1)) (n - 1) n with
    | error e => rfl
    | ok fx =>
        simp only [Except.bind]
        by_cases hfx : fx ≠ 1
        · rw [if_pos hfx, if_pos hfx]
        · rw [if_neg hfx, if_neg hfx]
          by_cases hu0 : (v2loop (n - 1)).1 = 0
          · rw [hu0]
          · obtain ⟨hdec, hrodd, hrpos⟩ := v2loop_spec (n - 1) (by omega)
            have hn5 : 5 ≤ n := by
              by_contra hlt
              apply hu0
              have hn4' : n = 4 := by omega
              rw [hn4']
              have h3v : v2loop ((4 : Int) - 1) = (0, 3) := by
                have h31 : ((4 : Int) - 1) = 3 := by norm_num
                rw [h31]
                exact v2loop_eval 3 0 3 (by norm_num) (by decide)
                  (by norm_num)
              rw [h3v]
            have hrr : (n - 1).tdiv (2 ^ (v2loop (n - 1)).1) =
                (v2loop (n - 1)).2 := by
              nth_rewrite 1 [hdec]
              rw [Int.mul_tdiv_cancel_left _
                (by positivity : (0:Int) < 2 ^ (v2loop (n - 1)).1).ne']
            rw [hrr]
            exact mrRounds_fuel n (v2loop (n - 1)).2 (v2loop (n - 1)).1
              rnd t hn5 (by omega) hdec hrpos hrodd k 0

/-- Witness for C6 at `n = 9`, `k = 2`, the lower-end random source. -/
theorem C6_squaring_loop_equiv_witness :
    (2 : Int) ≤ 9 ∧ isprime 9 2 (fun _ lo _ => lo) 0 =
      isprimeRef 9 2 (fun _ lo _ => lo) 0 :=
  ⟨by norm_num, C6_squaring_loop_equiv 9 2 (fun _ lo _ => lo) 0 (by norm_num)⟩

/-! ### C10: `qpp::randprime` -/

/-- Under a range-respecting random source the witness loop never raises:
each round's `modpow` call is on in-range arguments. -/
theorem mrRounds_ok (n r : Int) (u : Nat) (rnd : Nat → Int → Int → Int)
    (t : Nat) (hn4 : 4 ≤ n) (hr0 : 0 ≤ r) (hg : GoodRand rnd) :
    ∀ k i, ∃ bl, mrRounds n r u rnd t k i = .ok bl := by
  intro k
  induction k with
  | zero => intro i; exact ⟨true, rfl⟩
  | succ k ih =>
      intro i
      obtain ⟨ha1, ha2⟩ := hg (t + 1 + i) 2 (n - 2) (by omega)
      have hmp := modpow_eq (rnd (t + 1 + i) 2 (n - 2)) r n (by omega) hr0
        (by omega) (fun hc => by omega) (fun hc => by omega)
      rw [mrRounds, hmp]
      simp only [Except.bind]
      by_cases hz : (rnd (t + 1 + i) 2 (n - 2)) ^ r.toNat % n = 1 ∨
          (rnd (t + 1 + i) 2 (n - 2)) ^ r.toNat % n = n - 1
      · rw [if_pos hz]
        exact ih (i + 1)
      · rw [if_neg hz]
        rcases hS : sqLoop n ((rnd (t + 1 + i) 2 (n - 2)) ^ r.toNat % n) u
          with _ | _ | w
        · exact ⟨false, rfl⟩
        · exact ih (i + 1)
        · exact ⟨false, rfl⟩

/-- Under a range-respecting random source `isprime` never raises on inputs
`n ≥ 3`: it returns some Boolean verdict. -/
theorem isprime_ok (n : Int) (k : Nat) (rnd : Nat → Int → Int → Int)
    (t : Nat) (hn3 : 3 ≤ n) (hg : GoodRand rnd) :
    ∃ bl, isprime n k rnd t = .ok bl := by
  by_cases h3 : n = 3
  · refine ⟨true, ?_⟩
    rw [h3]
    rfl
  · have hn4 : 4 ≤ n := by omega
    have hn0 : (if n < 0 then -n else n) = n := if_neg (by omega)
    obtain ⟨hx1, hx2⟩ := hg t 2 (n - 1) (by omega)
    have hmpx := modpow_eq (rnd t 2 (n - 1)) (n - 1) n (by omega) (by omega)
      (by omega) (fun hc => by omega) (fun hc => by omega)
    rw [isprime]
    simp only [hn0]
    rw [if_neg (by omega : ¬ n < 2), if_neg (by omega : ¬ (n = 2 ∨ n = 3)),
      hmpx]
    simp only [Except.bind]
    by_cases hw : (rnd t 2 (n - 1)) ^ (n - 1).toNat % n ≠ 1
    · rw [if_pos hw]
      exact ⟨false, rfl⟩
    · rw [if_neg hw]
      exact mrRounds_ok n ((n - 1).tdiv (2 ^ (v2loop (n - 1)).1))
        (v2loop (n - 1)).1 rnd t hn4
        (Int.tdiv_nonneg (by omega) (by positivity)) hg k 0

/-- The attempt loop of `qpp::randprime`
(`for (; i < static_cast<bigint>(N); ++i) {...}` followed by
`if (i == N) throw ...; return 0;`).  Attempt `i` draws its candidate at
call identifier `t + 83 * i`, its Fermat base at `t + 83 * i + 1`, and runs
`isprime` (default `k = 80`) at `t + 83 * i + 2`. -/
def randprimeLoop (a b : Int) (N : Nat) (rnd : Nat → Int → Int → Int)
    (t : Nat) (i : Nat) : Except ExcType Int :=
  if i < N then
    if |rnd (t + 83 * i) a b| < 2 then randprimeLoop a b N rnd t (i + 1)
    else if |rnd (t + 83 * i) a b| = 2 then .ok (rnd (t + 83 * i) a b)
    else
      (modpow (rnd (t + 83 * i + 1) 2 (rnd (t + 83 * i) a b - 1))
          (rnd (t + 83 * i) a b - 1) (rnd (t + 83 * i) a b)).bind fun f =>
        if f ≠ 1 then randprimeLoop a b N rnd t (i + 1)
        else
          (isprime (rnd (t + 83 * i) a b) 80 rnd
              (t + 83 * i + 2)).bind fun pr =>
            if pr then .ok (rnd (t + 83 * i) a b)
            else randprimeLoop a b N rnd t (i + 1)
  else if i = N then .error (.CUSTOM "Prime not found!")
  else .ok 0
termination_by N - i
decreasing_by all_goals omega

/-- `qpp::randprime(bigint a, bigint b, idx N = 1000)`. -/
def randprime (a b : Int) (N : Nat) (rnd : Nat → Int → Int → Int)
    (t : Nat) : Except ExcType Int :=
  if a > b then .error .OUT_OF_RANGE
  else randprimeLoop a b N rnd t 0

/-- With candidates drawn from `[a, b] ⊆ [-2, ∞)` by a range-respecting
source, every attempt either accepts its (nonzero) candidate, moves on, or
exhausts the budget with the Prime-not-found error. -/
theorem randprimeLoop_spec (a b : Int) (N : Nat)
    (rnd : Nat → Int → Int → Int) (t : Nat) (hab : a ≤ b) (ha : -2 ≤ a)
    (hg : GoodRand rnd) : ∀ d i, N - i ≤ d → i ≤ N →
    (∃ c, randprimeLoop a b N rnd t i = .ok c ∧ c ≠ 0) ∨
      randprimeLoop a b N rnd t i = .error (.CUSTOM "Prime not found!") := by
  intro d
  induction d with
  | zero =>
      intro i hd hi
      have hiN : i = N := by omega
      right
      rw [randprimeLoop, if_neg (by omega), if_pos hiN]
  | succ d ih =>
      intro i hd hi
      by_cases hiN : i < N
      · rw [randprimeLoop, if_pos hiN]
        obtain ⟨hc1, hc2⟩ := hg (t + 83 * i) a b hab
        by_cases habs1 : |rnd (t + 83 * i) a b| < 2
        · rw [if_pos habs1]
          exact ih (i + 1) (by omega) (by omega)
        · rw [if_neg habs1]
          by_cases habs2 : |rnd (t + 83 * i) a b| = 2
          · rw [if_pos habs2]
            left
            refine ⟨rnd (t + 83 * i) a b, rfl, ?_⟩
            intro h0
            rw [h0] at habs2
            norm_num at habs2
          · rw [if_neg habs2]
            have hc3 : 3 ≤ rnd (t + 83 * i) a b := by
              rcases abs_cases (rnd (t + 83 * i) a b) with ⟨h1, h2⟩ | ⟨h1, h2⟩
              · omega
              · omega
            obtain ⟨hx1, hx2⟩ := hg (t + 83 * i + 1) 2
              (rnd (t + 83 * i) a b - 1) (by omega)
            have hmp := modpow_eq (rnd (t + 83 * i + 1) 2
                (rnd (t + 83 * i) a b - 1)) (rnd (t + 83 * i) a b - 1)
              (rnd (t + 83 * i) a b) (by omega) (by omega) (by omega)
              (fun hc' => by omega) (fun hc' => by omega)
            rw [hmp]
            simp only [Except.bind]
            by_cases hf : (rnd (t + 83 * i + 1) 2 (rnd (t + 83 * i) a b - 1))
                ^ (rnd (t + 83 * i) a b - 1).toNat %
                  rnd (t + 83 * i) a b ≠ 1
            · rw [if_pos hf]
              exact ih (i + 1) (by omega) (by omega)
            · rw [if_neg hf]
              obtain ⟨bl, hbl⟩ := isprime_ok (rnd (t + 83 * i) a b) 80 rnd
                (t + 83 * i + 2) (by omega) hg
              rw [hbl]
              simp only [Except.bind]
              cases bl with
              | true =>
                  rw [if_pos rfl]
                  left
                  exact ⟨rnd (t + 83 * i) a b, rfl, by omega⟩
              | false =>
                  rw [if_neg (by norm_num)]
                  exact ih (i + 1) (by omega) (by omega)
      · have hiN' : i = N := by omega
        right
        rw [randprimeLoop, if_neg (by omega), if_pos hiN']

/-- Whatever the inputs and the random source do, the attempt loop started
within budget never produces the fallback value `0`. -/
theorem randprimeLoop_ne_zero (a b : Int) (N : Nat)
    (rnd : Nat → Int → Int → Int) (t : Nat) : ∀ d i, N - i ≤ d → i ≤ N →
    randprimeLoop a b N rnd t i ≠ .ok 0 := by
  intro d
  induction d with
  | zero =>
      intro i hd hi
      have hiN : i = N := by omega
      rw [randprimeLoop, if_neg (by omega), if_pos hiN]
      intro hc
      exact Except.noConfusion hc
  | succ d ih =>
      intro i hd hi
      by_cases hiN : i < N
      · rw [randprimeLoop, if_pos hiN]
        by_cases habs1 : |rnd (t + 83 * i) a b| < 2
        · rw [if_pos habs1]
          exact ih (i + 1) (by omega) (by omega)
        · rw [if_neg habs1]
          have hne : rnd (t + 83 * i) a b ≠ 0 := by
            intro h0
            rw [h0] at habs1
            norm_num at habs1
          by_cases habs2 : |rnd (t + 83 * i) a b| = 2
          · rw [if_pos habs2]
            intro hc
            injection hc with hc'
            exact hne hc'
          · rw [if_neg habs2]
            cases hmp : modpow (rnd (t + 83 * i + 1) 2
                (rnd (t + 83 * i) a b - 1)) (rnd (t + 83 * i) a b - 1)
                (rnd (t + 83 * i) a b) with
            | error e => intro hc; exact Except.noConfusion hc
            | ok f =>
                simp only [Except.bind]
                by_cases hf : f ≠ 1
                · rw [if_pos hf]
                  exact ih (i + 1) (by omega) (by omega)
                · rw [if_neg hf]
                  cases hpr : isprime (rnd (t + 83 * i) a b) 80 rnd
                      (t + 83 * i + 2) with
                  | error e => intro hc; exact Except.noConfusion hc
                  | ok pr =>
                      simp only [Except.bind]
                      cases pr with
                      | true =>
                          rw [if_pos rfl]
                          intro hc
                          injection hc with hc'
                          exact hne hc'
                      | false =>
                          rw [if_neg (by norm_num)]
                          exact ih (i + 1) (by omega) (by omega)
      · have hiN' : i = N := by omega
        rw [randprimeLoop, if_neg (by omega), if_pos hiN']
        intro hc
        exact Except.noConfusion hc

/-- **C10.** For `-2 ≤ a ≤ b` and a range-respecting random source,
`randprime` either returns a nonzero candidate accepted inside its attempt
loop or fails with the Prime-not-found error; moreover, for every input and
every random source whatsoever, it never returns the fallback value `0`. -/
theorem C10_randprime_no_fallback (a b : Int) (N : Nat)
    (rnd : Nat → Int → Int → Int) (t : Nat) (hab : a ≤ b) (ha : -2 ≤ a)
    (hg : GoodRand rnd) :
    ((∃ c, randprime a b N rnd t = .ok c ∧ c ≠ 0) ∨
      randprime a b N rnd t = .error (.CUSTOM "Prime not found!")) ∧
      ∀ (a' b' : Int) (N' : Nat) (rnd' : Nat → Int → Int → Int) (t' : Nat),
        randprime a' b' N' rnd' t' ≠ .ok 0 := by
  constructor
  · rw [randprime, if_neg (by omega : ¬ a > b)]
    exact randprimeLoop_spec a b N rnd t hab ha hg N 0 (by omega) (by omega)
  · intro a' b' N' rnd' t'
    rw [randprime]
    by_cases hab' : a' > b'
    · rw [if_pos hab']
      intro hc
      exact Except.noConfusion hc
    · rw [if_neg hab']
      exact randprimeLoop_ne_zero a' b' N' rnd' t' N' 0 (by omega) (by omega)

/-- C10 counterexample: with `a = b = -5 ≤ b` and the lower-end random
source, the first candidate is `-5`, whose Fermat `modpow` call has a
negative exponent and throws `OUT_OF_RANGE` — an outcome outside the
claim's accepted-or-Prime-not-found dichotomy. -/
theorem C10_randprime_counterexample :
    ((-5 : Int) ≤ -5 ∧
      randprime (-5) (-5) 1 (fun _ lo _ => lo) 0 =
        .error .OUT_OF_RANGE) ∧
      (∀ c : Int, (Except.error ExcType.OUT_OF_RANGE :
        Except ExcType Int) ≠ .ok c) ∧
      ExcType.OUT_OF_RANGE ≠ .CUSTOM "Prime not found!" := by
  refine ⟨⟨le_rfl, ?_⟩, fun c hc => Except.noConfusion hc, by decide⟩
  rw [randprime, if_neg (by norm_num),
    randprimeLoop, if_pos (by norm_num : (0:Nat) < (1:Nat))]
  norm_num
  rw [modpow, if_pos (by norm_num)]
  rfl

/-- Witness for C10 at `a = b = 2`, `N = 1`, the lower-end random source. -/
theorem C10_randprime_no_fallback_witness :
    ((-2 : Int) ≤ 2 ∧ (2 : Int) ≤ 2 ∧ GoodRand (fun _ lo _ => lo)) ∧
      (((∃ c, randprime 2 2 1 (fun _ lo _ => lo) 0 = .ok c ∧ c ≠ 0) ∨
        randprime 2 2 1 (fun _ lo _ => lo) 0 =
          .error (.CUSTOM "Prime not found!")) ∧
        ∀ (a' b' : Int) (N' : Nat) (rnd' : Nat → Int → Int → Int)
          (t' : Nat), randprime a' b' N' rnd' t' ≠ .ok 0) :=
  ⟨⟨by norm_num, by norm_num, fun _ _ _ h => ⟨le_rfl, h⟩⟩,
    C10_randprime_no_fallback 2 2 1 (fun _ lo _ => lo) 0 (by norm_num)
      (by norm_num) (fun _ _ _ h => ⟨le_rfl, h⟩)⟩

/-- Witness for C4 at `a = 7`, `b = 9`, `m = 5`. -/
theorem C4_mulmod_equiv_witness :
    (0 : Int) ≤ 7 ∧ (0 : Int) ≤ 9 ∧ (0 : Int) < 5 ∧
      (internal.mulmod 7 9 5 = internal.mulmod1 7 9 5 ∧
        internal.mulmod 7 9 5 ≡ 7 * 9 [ZMOD 5] ∧
        0 ≤ internal.mulmod 7 9 5 ∧ internal.mulmod 7 9 5 < 5) :=
  ⟨by norm_num, by norm_num, by norm_num,
    C4_mulmod_equiv 7 9 5 (by norm_num) (by norm_num) (by norm_num)⟩

end qpp
